import Mathlib

/-!
Shallow embedding of `src/Download_data.py`: a parameter-driven API crawler.
Pure functions of the source are translated to Lean functions; the stateful
crawl scheduler (`AllAPI`) becomes explicit state passing over `CrawlState`.
The external collaborators (network fetch via `urlopen`, the JSON parser
`json.loads`, the filesystem writer) are modelled as oracle functions, as the
spec declares them out-of-scope interfaces.  Fallible code returns `Option`.
-/

namespace SparkCrawl

/-! ## JSON documents

Model of the duck-typed JSON tree (`str/int/bool/None/list/dict`) produced by
`json.loads`.  Numbers are modelled as integers (the documents exercised by the
crawler carry integral ids); `json.dumps` on an int prints its decimal form,
which `Int.repr` matches. -/

inductive JValue where
  | null : JValue
  | bool (b : Bool) : JValue
  | num (n : Int) : JValue
  | str (s : String) : JValue
  | arr (elems : List JValue) : JValue
  | obj (fields : List (String × JValue)) : JValue

/-- Rendering by `json.dumps` on the scalar shapes accepted at the end of a path
(`Download_data.py` lines 40-43): strings verbatim, other scalars as their
JSON literal text. -/
def emptyPathYield : JValue → List String
  | .str s => [s]
  | .num n => [toString n]
  | .bool true => ["true"]
  | .bool false => ["false"]
  | .null => ["null"]
  | _ => []

/-- First-match association lookup, the observable behaviour of a Python dict
access `doc[key]` guarded by `key in doc`. -/
def alookup {α : Type} : List (String × α) → String → Option α
  | [], _ => none
  | (k, v) :: d, k' => if k = k' then some v else alookup d k'

mutual
/-- Translation of `JSONProvider.provideRecur` (`Download_data.py` lines 38-50).  The three
`if`-branches of the Python generator run in sequence: scalar yield on an
exhausted path, transparent descent through lists, and keyed descent through
dicts while path segments remain. -/
def provideRecur (doc : JValue) (path : List String) : List String :=
  (if path.isEmpty then emptyPathYield doc else []) ++
  (match doc with
   | .arr xs => provideRecurList xs path
   | _ => []) ++
  (match doc, path with
   | .obj fs, key :: remainingPath => provideRecurObj key fs remainingPath
   | _, _ => [])

/-- Descent into each list element in original order (lines 44-46). -/
def provideRecurList (xs : List JValue) (path : List String) : List String :=
  match xs with
  | [] => []
  | x :: rest => provideRecur x path ++ provideRecurList rest path

/-- Translation of `if key in doc: yield from self.provideRecur(doc[key], remainingPath)`
(lines 47-50), inlining the dict lookup. -/
def provideRecurObj (key : String) (fs : List (String × JValue)) (rest : List String) :
    List String :=
  match fs with
  | [] => []
  | (k, v) :: fs' => if k = key then provideRecur v rest else provideRecurObj key fs' rest
end

/-! ## URL templates -/

/-- A segment of an endpoint URL: `ParameterPart` or `ConstantPart`
(`Download_data.py` lines 14-27). -/
inductive Part where
  | param (name : String) : Part
  | const (value : String) : Part
deriving DecidableEq, Repr

/-- Dependencies of a part: `ParameterPart.dependencies` returns `[name]`, `ConstantPart` inherits the
empty list from `ApiPart` (lines 11-18). -/
def Part.deps : Part → List String
  | .param n => [n]
  | .const _ => []

/-- A concrete binding of parameter names to values (the Python dict
`url_params`). -/
abbrev Binding := List (String × String)

/-- Substitution into one part: `ParameterPart.binded` is `str(params[self.name])`: a dict access that
raises `KeyError` when the name is unbound, modelled as `none`.  Values are
already strings, so `str` is the identity.  `ConstantPart.binded` returns the
literal (lines 19, 26). -/
def Part.binded (p : Part) (b : Binding) : Option String :=
  match p with
  | .param n => alookup b n
  | .const v => some v

/-- Translation of `APIUrl.makePart` (lines 83-89).  Python indexes `e[0]` and `e[-1]`, which
raises `IndexError` on the empty string (modelled `none`); otherwise a segment
whose first character is `{` and last character is `}` becomes a
`ParameterPart` named by `e[1:-1]`, and anything else a `ConstantPart`. -/
def makePart (e : String) : Option Part :=
  match e.toList with
  | [] => none
  | c :: cs =>
    if c = '{' ∧ cs.getLast? = some '}' then some (.param ⟨cs.dropLast⟩)
    else some (.const e)

/-- An `APIUrl`: the parsed parts plus the `provides` mapping from parameter
name to extraction path (lines 52-55, with each `JSONProvider` reduced to its
path). -/
structure APIUrl where
  parts : List Part
  providers : List (String × List String)
deriving DecidableEq, Repr

/-- Translation of `APIUrl.dependencies`: concatenation of each part's dependencies in
segment order (lines 57-58). -/
def APIUrl.dependencies (u : APIUrl) : List String :=
  u.parts.flatMap Part.deps

/-- The sequence `(p.binded(params) for p in self.parts)`: fails as soon as one
part fails. -/
def bindParts (b : Binding) : List Part → Option (List String)
  | [] => some []
  | p :: ps =>
    match p.binded b, bindParts b ps with
    | some s, some ss => some (s :: ss)
    | _, _ => none

/-- Translation of `APIUrl.binded`: `"".join(p.binded(params) for p in self.parts)`
(lines 63-64). -/
def APIUrl.binded (u : APIUrl) (b : Binding) : Option String :=
  (bindParts b u.parts).map String.join

/-- Translation of `APIUrl.provide` (lines 71-76): one entry per declared provider, each
running `json.loads` on the response (the `parse` oracle) and extracting along
its path; the whole call fails if parsing fails, and an endpoint with no
providers never parses and always succeeds with the empty mapping. -/
def APIUrl.provide (parse : String → Option JValue) (u : APIUrl) (source : String) :
    Option (List (String × List String)) :=
  go u.providers
where
  go : List (String × List String) → Option (List (String × List String))
    | [] => some []
    | (p, path) :: rest =>
      match parse source, go rest with
      | some doc, some tl => some ((p, provideRecur doc path) :: tl)
      | _, _ => none

/-! ## The crawl scheduler (`AllAPI`, lines 124-175)

`AllAPI.params`, `AllAPI.done` and `AllAPI.loop` are *class* attributes of
`AllAPI`.  `self.params[...] = ...` and `self.done.add(...)` mutate those
class-level containers in place (no instance attribute is ever created for
them), while `self.loop = ...` creates a per-instance attribute.  The three
are gathered in `CrawlState`, threaded explicitly; the class-level sharing
across instances is modelled in `crawlFrom` below. -/

/-- The parameter store: `ParamName -> set of values`.  Python sets are
modelled as duplicate-free lists in discovery order. -/
abbrev Params := List (String × List String)

/-- Store lookup `d.get(name)` for the parameter store; the only caller
(`all_param_values`, reached through the `issubset` guard of `download_url`)
guarantees the key is present, so the default `[]` is never observable. -/
def getVals (ps : Params) (d : String) : List String :=
  (alookup ps d).getD []

/-- Key test `name in self.params.keys()`. -/
def hasKey (ps : Params) (d : String) : Bool :=
  (alookup ps d).isSome

/-- Translation of `itertools.product(*params)`: the leftmost factor varies slowest, matching
the Python iteration order. -/
def listProduct : List (List String) → List (List String)
  | [] => [[]]
  | l :: ls => l.flatMap (fun v => (listProduct ls).map (v :: ·))

/-- One step of Python dict construction: `d[k] = v` updates the value of an
existing key in place (keeping its position) or appends a new entry. -/
def dictInsert : Binding → String → String → Binding
  | [], k, v => [(k, v)]
  | (k₀, v₀) :: d, k, v =>
    if k₀ = k then (k₀, v) :: d else (k₀, v₀) :: dictInsert d k v

/-- Sequential dict construction from a pair list. -/
def insertAll (d : Binding) : List (String × String) → Binding
  | [] => d
  | (k, v) :: rest => insertAll (dictInsert d k v) rest

/-- Translation of `dict(zip(pnames, x))` (line 106): duplicate names collapse onto one
entry holding the *last* zipped value, at the position of the first
occurrence. -/
def dictZip (ks vs : List String) : Binding :=
  insertAll [] (ks.zip vs)

/-- Translation of `all_param_values` (lines 103-106): the Cartesian product of the value
sets of `pnames` in order, each tuple turned into a binding dict. -/
def allParamValues (ps : Params) (pnames : List String) : List Binding :=
  (listProduct (pnames.map (fun d => getVals ps d))).map (fun x => dictZip pnames x)

/-- Python's `set.add` on a duplicate-free list (only ever called on absent values
here, but kept guarded like the Python set). -/
def setAdd (s : List String) (v : String) : List String :=
  if v ∈ s then s else s ++ [v]

/-- Translation of `prev.update(values)` (line 167). -/
def setUnion (s : List String) (vs : List String) : List String :=
  vs.foldl setAdd s

/-- Positional update of an existing parameter entry, as Python's
`self.params[param] = prev` for a present key. -/
def assocUpdate (ps : Params) (k : String) (v : List String) : Params :=
  ps.map (fun e => if e.1 = k then (k, v) else e)

/-- Lines 166-168 for one produced `(param, values)` pair: union into the
existing set or create a fresh entry. -/
def paramsMerge1 (ps : Params) (p : String) (vs : List String) : Params :=
  match alookup ps p with
  | some prev => assocUpdate ps p (setUnion prev vs)
  | none => ps ++ [(p, setUnion [] vs)]

/-- The loop `for param, values in new_params.items()` (lines 165-168). -/
def paramsMergeAll (ps : Params) (nps : List (String × List String)) : Params :=
  nps.foldl (fun a pr => paramsMerge1 a pr.1 pr.2) ps

/-- The external collaborators, specified only by interface: the network
transport (`urlopen(url).read()`, `none` = exception), the result persister
(`ResultSaver.save`, `false` = exception) and the JSON parser (`json.loads`,
`none` = exception). -/
structure Oracle where
  fetch : String → Option String
  save : String → String → Bool
  parse : String → Option JValue

/-- Observable actions of one crawl, in order: each issued fetch (with the
dedup key it was issued under), each persist attempt, each extraction
attempt, tagged by success. -/
inductive Event where
  | fetched (idx : Nat) (tup : List String) (url : String) (ok : Bool) : Event
  | saved (url : String) (ok : Bool) : Event
  | extracted (url : String) (ok : Bool) : Event
deriving DecidableEq, Repr

/-- The mutable crawl state: `params`, `done` and `loop`. -/
structure CrawlState where
  params : Params
  done : List (Nat × List String)
  loop : Bool
deriving DecidableEq, Repr

/-- The dedup key `todo = (url, tuple(url_params.values()))` (line 147), with the endpoint
object's identity rendered as its index in `self.urls`. -/
def todoOf (idx : Nat) (b : Binding) : Nat × List String :=
  (idx, b.map (·.2))

/-- The body of the per-binding loop of `AllAPI.download_url`
(lines 146-169): dedup check, issue, fetch with failure logged and abandoned,
persist with failure logged and ignored, extraction with failure logged and
abandoned, merge and set the progress flag.  `none` models the one uncaught
exception: a `KeyError` escaping from `url.binded(url_params)` (line 150). -/
def processBinding (O : Oracle) (idx : Nat) (u : APIUrl) (st : CrawlState) (b : Binding) :
    Option (CrawlState × List Event) :=
  if todoOf idx b ∈ st.done then some (st, [])
  else
    let st1 : CrawlState := { st with done := st.done ++ [todoOf idx b] }
    match u.binded b with
    | none => none
    | some url_str =>
      match O.fetch url_str with
      | none => some (st1, [.fetched idx (b.map (·.2)) url_str false])
      | some result =>
        let sev : Event := .saved url_str (O.save url_str result)
        match u.provide O.parse result with
        | none =>
          some (st1, [.fetched idx (b.map (·.2)) url_str true, sev,
                      .extracted url_str false])
        | some nps =>
          some ({ st1 with params := paramsMergeAll st1.params nps, loop := true },
                [.fetched idx (b.map (·.2)) url_str true, sev,
                 .extracted url_str true])

/-- The loop `for url_params in all_param_values(self.params, deps)` (line 146): the
bindings are enumerated from the parameter store as it stood when the loop
started (`itertools.product` materialises its inputs on first demand, before
any mutation). -/
def processBindings (O : Oracle) (idx : Nat) (u : APIUrl) :
    CrawlState → List Binding → Option (CrawlState × List Event)
  | st, [] => some (st, [])
  | st, b :: bs =>
    match processBinding O idx u st b with
    | none => none
    | some (st', ev) =>
      match processBindings O idx u st' bs with
      | none => none
      | some (st'', evs) => some (st'', ev ++ evs)

/-- Translation of `AllAPI.download_url` (lines 143-169): skip the endpoint unless every
dependency name is a current key of the parameter store, otherwise process
every candidate binding. -/
def download_url (O : Oracle) (idx : Nat) (u : APIUrl) (st : CrawlState) :
    Option (CrawlState × List Event) :=
  if u.dependencies.all (fun d => hasKey st.params d) then
    processBindings O idx u st (allParamValues st.params u.dependencies)
  else some (st, [])

/-- The pass `for url in self.urls: self.download_url(url)` over the indexed endpoint
list. -/
def downloadUrls (O : Oracle) :
    List (Nat × APIUrl) → CrawlState → Option (CrawlState × List Event)
  | [], st => some (st, [])
  | (idx, u) :: rest, st =>
    match download_url O idx u st with
    | none => none
    | some (st', ev) =>
      match downloadUrls O rest st' with
      | none => none
      | some (st'', evs) => some (st'', ev ++ evs)

/-- Endpoints paired with their position in `self.urls` (the identity used by
the dedup key). -/
def enumFrom (n : Nat) : List APIUrl → List (Nat × APIUrl)
  | [] => []
  | u :: us => (n, u) :: enumFrom (n + 1) us

/-- Translation of `AllAPI.download_step` (lines 139-141): clear the progress flag, then one
pass over all endpoints in declaration order. -/
def download_step (O : Oracle) (urls : List APIUrl) (st : CrawlState) :
    Option (CrawlState × List Event) :=
  downloadUrls O (enumFrom 0 urls) { st with loop := false }

/-- Translation of `AllAPI.download` (lines 136-137): `while self.loop: self.download_step()`,
made total with a fuel bound; the returned `Nat` counts the passes executed.
`none` means either the fuel ran out or a pass crashed. -/
def downloadFuel (O : Oracle) (urls : List APIUrl) :
    Nat → CrawlState → Option (CrawlState × List Event × Nat)
  | 0, st => if st.loop then none else some (st, [], 0)
  | fuel + 1, st =>
    if st.loop then
      match download_step O urls st with
      | none => none
      | some (st', ev) =>
        match downloadFuel O urls fuel st' with
        | none => none
        | some (st'', evs, r) => some (st'', ev ++ evs, r + 1)
    else some (st, [], 0)

/-- The class-attribute initial values of `AllAPI` (lines 125-127), as they
stand when the process starts: empty store, empty issued set, `loop = True`. -/
def initState : CrawlState :=
  ⟨[], [], true⟩

/-- The shared class-level part of the state: `params` and `done` (`loop` is
shadowed by an instance attribute as soon as a crawl assigns it, so each
`download()` call effectively starts with the class value `True`). -/
def sharedOf (st : CrawlState) : Params × List (Nat × List String) :=
  (st.params, st.done)

/-- Running `AllAPI(urls).download()` against the class-level state left by
earlier instances: `params` and `done` are inherited, `loop` reads the
untouched class attribute `True`. -/
def crawlFrom (O : Oracle) (urls : List APIUrl) (fuel : Nat)
    (shared : Params × List (Nat × List String)) :
    Option (CrawlState × List Event × Nat) :=
  downloadFuel O urls fuel ⟨shared.1, shared.2, true⟩

/-! ## Derived observations used by the statements -/

/-- The dedup keys under which fetches were issued, in issue order. -/
def fetchKeys (evs : List Event) : List (Nat × List String) :=
  evs.filterMap (fun e =>
    match e with
    | .fetched i t _ _ => some (i, t)
    | _ => none)

/-- The URLs actually fetched, in issue order. -/
def fetchUrls (evs : List Event) : List String :=
  evs.filterMap (fun e =>
    match e with
    | .fetched _ _ url _ => some url
    | _ => none)

/-- Condition under which one binding reaches the merge code (lines 165-169):
its dedup key is fresh, its URL renders, its fetch succeeds and its extraction
succeeds.  The source sets `self.loop = True` exactly in this case, whether or
not the merge adds any value. -/
def bindingMerges (O : Oracle) (idx : Nat) (u : APIUrl) (st : CrawlState) (b : Binding) :
    Bool :=
  if todoOf idx b ∈ st.done then false
  else
    match u.binded b with
    | none => false
    | some url =>
      match O.fetch url with
      | none => false
      | some r => (u.provide O.parse r).isSome

/-! ## A finite universe bounding the discovery (claim C3)

The spec's "finite, acyclic-discovery endpoint set" is rendered as: only
finitely many URLs answer at all (`F` lists every URL on which the fetch
oracle succeeds).  Every parameter value the crawl can ever store is then
extracted from one of those finitely many responses, and every dedup key the
crawl can ever issue lives in a finite universe of tuples over those
values. -/

/-- All parameter values any configured endpoint can extract from the
response at `url`. -/
def extractedOf (O : Oracle) (urls : List APIUrl) (url : String) : List String :=
  match O.fetch url with
  | none => []
  | some r =>
    urls.flatMap (fun u =>
      match u.provide O.parse r with
      | none => []
      | some nps => nps.flatMap (fun pr => pr.2))

/-- All parameter values reachable from the answering URLs `F`. -/
def valueUniverse (O : Oracle) (urls : List APIUrl) (F : List String) : List String :=
  F.flatMap (extractedOf O urls)

/-- An upper bound on the number of dependencies of any configured
endpoint. -/
def maxDepsLen (urls : List APIUrl) : Nat :=
  (urls.map (fun u => u.dependencies.length)).foldr max 0

/-- All lists over `W` of length at most `k` (an enumeration; duplicates are
irrelevant, only membership and length are used). -/
def listsLe (W : List String) : Nat → List (List String)
  | 0 => [[]]
  | k + 1 => [] :: W.flatMap (fun v => (listsLe W k).map (v :: ·))

/-- The finite universe of dedup keys the crawl can ever issue. -/
def todoUniverse (O : Oracle) (urls : List APIUrl) (F : List String) :
    List (Nat × List String) :=
  (List.range urls.length).flatMap (fun i =>
    (listsLe (valueUniverse O urls F) (maxDepsLen urls)).map (fun t => (i, t)))

/-- Fuel sufficient for the fixpoint loop to reach `loop = False` under the
finite-discovery hypothesis. -/
def fuelBound (O : Oracle) (urls : List APIUrl) (F : List String) : Nat :=
  (todoUniverse O urls F).length + 2

/-- The crawl invariant backing termination: the issued set is duplicate-free
and inside the finite key universe, and every stored parameter value is inside
the finite value universe. -/
def Inv (O : Oracle) (urls : List APIUrl) (F : List String) (st : CrawlState) : Prop :=
  st.done.Nodup ∧
  (∀ t ∈ st.done, t ∈ todoUniverse O urls F) ∧
  (∀ pvs ∈ st.params, ∀ v ∈ pvs.2, v ∈ valueUniverse O urls F)

/-! ## Concrete instances used by counterexamples and witnesses -/

/-- The two concrete documents of the spec's testable properties for the
value extractor. -/
def exampleDoc : JValue :=
  .obj [("a", .arr [.obj [("id", .num 1)], .obj [("id", .num 2)]])]

/-- The path-miss document: the value under `"a"` is a string leaf. -/
def exampleDocMiss : JValue :=
  .obj [("a", .str "x")]

/-- Oracle whose single URL `"X"` answers with a response whose extraction
yields the value `"v"`. -/
def oracleKnown : Oracle where
  fetch s := if s = "X" then some "r" else none
  save _ _ := true
  parse s := if s = "r" then some (.obj [("id", .str "v")]) else none

/-- Endpoint with no dependencies providing parameter `"p"` from key
`"id"`. -/
def epKnown : APIUrl :=
  ⟨[.const "X"], [("p", ["id"])]⟩

/-- A crawl state that already knows the only value `"v"` the oracle can ever
produce for `"p"`. -/
def stKnown : CrawlState :=
  ⟨[("p", ["v"])], [], true⟩

/-- Oracle for a three-endpoint dependency chain: `"A"` provides `p1 = "v"`,
`"Bv"` provides `p2 = "w"`, `"Cw"` answers with an empty object. -/
def oracleChain : Oracle where
  fetch s :=
    if s = "A" then some "ra"
    else if s = "Bv" then some "rb"
    else if s = "Cw" then some "rc"
    else none
  save _ _ := true
  parse s :=
    if s = "ra" then some (.obj [("id", .str "v")])
    else if s = "rb" then some (.obj [("jid", .str "w")])
    else if s = "rc" then some (.obj [])
    else none

/-- Three endpoints forming a dependency chain of three endpoints (two
dependency edges), declared in dependency order. -/
def urlsChain : List APIUrl :=
  [⟨[.const "A"], [("p1", ["id"])]⟩,
   ⟨[.const "B", .param "p1"], [("p2", ["jid"])]⟩,
   ⟨[.const "C", .param "p2"], []⟩]

/-- Oracle that answers every URL with a response parsing to an empty
object. -/
def oracleTrivial : Oracle where
  fetch _ := some "r"
  save _ _ := true
  parse _ := some (.obj [])

/-- Endpoint whose URL references the parameter `"a"` twice. -/
def epDupDep : APIUrl :=
  ⟨[.param "a", .param "a"], []⟩

/-- Store with two known values for `"a"`. -/
def stDup : CrawlState :=
  ⟨[("a", ["1", "2"])], [], true⟩

/-- Endpoint depending on two distinct parameters `"a"` and `"b"`. -/
def epTwoDeps : APIUrl :=
  ⟨[.param "a", .const "-", .param "b"], []⟩

/-- Store with cardinalities 2 for `"a"` and 3 for `"b"`. -/
def stTwoDeps : CrawlState :=
  ⟨[("a", ["1", "2"]), ("b", ["x", "y", "z"])], [], true⟩

/-- Same store, with one of the six bindings already issued. -/
def stTwoDepsIssued : CrawlState :=
  ⟨[("a", ["1", "2"]), ("b", ["x", "y", "z"])], [(0, ["1", "x"])], true⟩

/-- Oracle whose single URL `"A"` provides `p = "v"`. -/
def oracleOne : Oracle where
  fetch s := if s = "A" then some "ra" else none
  save _ _ := true
  parse s := if s = "ra" then some (.obj [("id", .str "v")]) else none

/-- A single dependency-free endpoint. -/
def urlsOne : List APIUrl :=
  [⟨[.const "A"], [("p", ["id"])]⟩]

/-- Oracle on which every fetch fails. -/
def oracleNone : Oracle where
  fetch _ := none
  save _ _ := false
  parse _ := none

/-- A dependency-free endpoint with no providers. -/
def epConst : APIUrl :=
  ⟨[.const "W"], []⟩

/-! ## Value extractor lemmas (claim C5) -/

/-- Unfolding of the list branch: descent into every element in original
order, depth first. -/
theorem provideRecurList_eq_flatMap (xs : List JValue) (path : List String) :
    provideRecurList xs path = xs.flatMap (fun e => provideRecur e path) := by
  induction xs with
  | nil => rfl
  | cons x rest ih => simp [provideRecurList, ih]

/-- Unfolding of the dict branch: descent into the value at the key if
present, nothing otherwise. -/
theorem provideRecurObj_eq (key : String) (fs : List (String × JValue)) (rest : List String) :
    provideRecurObj key fs rest =
      match alookup fs key with
      | some v => provideRecur v rest
      | none => [] := by
  induction fs with
  | nil => rfl
  | cons f fs' ih =>
    obtain ⟨k, v⟩ := f
    by_cases h : k = key <;> simp [provideRecurObj, alookup, h, ih]

/-- Unfolding of `provideRecur` on an array: a list is traversed transparently
(no path segment consumed), elements in original order. -/
theorem provideRecur_arr (xs : List JValue) (path : List String) :
    provideRecur (.arr xs) path = xs.flatMap (fun e => provideRecur e path) := by
  rw [← provideRecurList_eq_flatMap]
  cases path with
  | nil => rw [provideRecur]; simp [emptyPathYield]
  | cons k rest => rw [provideRecur]; simp [emptyPathYield]

/-- Unfolding of `provideRecur` on an object with a remaining path segment:
consume the key if present, else nothing. -/
theorem provideRecur_obj_cons (fs : List (String × JValue)) (k : String) (rest : List String) :
    provideRecur (.obj fs) (k :: rest) =
      match alookup fs k with
      | some v => provideRecur v rest
      | none => [] := by
  rw [← provideRecurObj_eq, provideRecur]
  simp [emptyPathYield]

/-- C5.  The extractor yields exactly the scalars reachable by consuming the
path keys through objects, traversing arrays transparently (no path segment
consumed, elements in original order, depth first); with the path exhausted a
value is yielded only if it is a string (verbatim), number, boolean or null
(their JSON literal text); all other combinations yield nothing.  On
`{"a":[{"id":1},{"id":2}]}` with path `["a","id"]` it yields exactly `"1"`
then `"2"`, and on `{"a":"x"}` with the same path it yields nothing. -/
theorem c5_value_extractor :
    (∀ s, provideRecur (.str s) [] = [s]) ∧
    (∀ n : Int, provideRecur (.num n) [] = [toString n]) ∧
    (provideRecur (.bool true) [] = ["true"] ∧
      provideRecur (.bool false) [] = ["false"] ∧
      provideRecur .null [] = ["null"]) ∧
    (∀ fs, provideRecur (.obj fs) [] = []) ∧
    (∀ s k rest, provideRecur (.str s) (k :: rest) = []) ∧
    (∀ n : Int, ∀ k rest, provideRecur (.num n) (k :: rest) = []) ∧
    (∀ bv k rest, provideRecur (.bool bv) (k :: rest) = []) ∧
    (∀ k rest, provideRecur .null (k :: rest) = []) ∧
    (∀ xs path, provideRecur (.arr xs) path =
      xs.flatMap (fun e => provideRecur e path)) ∧
    (∀ fs k rest, provideRecur (.obj fs) (k :: rest) =
      match alookup fs k with
      | some v => provideRecur v rest
      | none => []) ∧
    provideRecur exampleDoc ["a", "id"] = ["1", "2"] ∧
    provideRecur exampleDocMiss ["a", "id"] = [] :=
  ⟨fun s => by rw [provideRecur]; simp [emptyPathYield]; all_goals intros; all_goals simp_all,
   fun n => by rw [provideRecur]; simp [emptyPathYield]; all_goals intros; all_goals simp_all,
   ⟨by rw [provideRecur]; simp [emptyPathYield]; all_goals intros; all_goals simp_all,
    by rw [provideRecur]; simp [emptyPathYield]; all_goals intros; all_goals simp_all,
    by rw [provideRecur]; simp [emptyPathYield]; all_goals intros; all_goals simp_all⟩,
   fun fs => by rw [provideRecur]; simp [emptyPathYield]; all_goals intros; all_goals simp_all,
   fun s k rest => by rw [provideRecur]; simp [emptyPathYield]; all_goals intros; all_goals simp_all,
   fun n k rest => by rw [provideRecur]; simp [emptyPathYield]; all_goals intros; all_goals simp_all,
   fun bv k rest => by cases bv <;> (rw [provideRecur]; simp [emptyPathYield]; all_goals intros; all_goals simp_all),
   fun k rest => by rw [provideRecur]; simp [emptyPathYield]; all_goals intros; all_goals simp_all,
   provideRecur_arr,
   provideRecur_obj_cons,
   by decide,
   by decide⟩

/-! ## URL segment parsing (claim C7) -/

/-- Characterisation of "the last element is `x`" as a concat shape. -/
theorem getLast?_eq_some_iff_concat {l : List Char} {x : Char} :
    l.getLast? = some x ↔ ∃ ys, l = ys ++ [x] := by
  constructor
  · intro h
    have hne : l ≠ [] := by rintro rfl; simp at h
    refine ⟨l.dropLast, ?_⟩
    have h2 := List.dropLast_append_getLast hne
    rw [List.getLast?_eq_getLast l hne] at h
    injection h with h3
    rw [h3] at h2
    exact h2.symm
  · rintro ⟨ys, rfl⟩
    exact List.getLast?_concat ys

/-- C7, counterexample.  The claim says the empty string segment becomes a
`Literal` carried verbatim; on `""` the source evaluates `e[0]`, which raises
`IndexError` (`makePart "" = none`), so no part at all is produced. -/
theorem c7_counterexample :
    makePart "" = none ∧ makePart "" ≠ some (.const "") := by
  constructor
  · rfl
  · intro h
    simp [makePart] at h

/-- C7, amended.  For a nonempty string segment the claimed rule holds: the
result is a `Parameter` named by the text strictly between the first and last
characters iff the first character is `{` and the last is `}`, and every
other nonempty segment becomes a `Literal` carried verbatim.  The empty
string, however, is not parsed into a `Literal`: evaluating `e[0]` raises
`IndexError` (modelled as `none`). -/
theorem c7_amended (e : String) :
    (makePart e = none ↔ e = "") ∧
    (∀ n, makePart e = some (.param n) ↔
      ∃ mid, e.toList = '{' :: (mid ++ ['}']) ∧ n = ⟨mid⟩) ∧
    (∀ s, makePart e = some (.const s) → s = e) ∧
    (makePart e = some (.const e) ↔
      e ≠ "" ∧ ¬∃ mid, e.toList = '{' :: (mid ++ ['}'])) := by
  obtain ⟨l⟩ := e
  have hdata : (String.mk l).toList = l := rfl
  cases l with
  | nil =>
    refine ⟨by simp [makePart, String.ext_iff], ?_, ?_, ?_⟩
    · intro n
      simp [makePart]
    · intro s h
      simp [makePart] at h
    · simp [makePart, String.ext_iff]
  | cons c cs =>
    have hne : (String.mk (c :: cs)) ≠ "" := by simp [String.ext_iff]
    by_cases hc : c = '{' ∧ cs.getLast? = some '}'
    · obtain ⟨hc1, hc2⟩ := hc
      obtain ⟨ys, hys⟩ := getLast?_eq_some_iff_concat.mp hc2
      have hdrop : cs.dropLast = ys := by rw [hys]; exact List.dropLast_concat
      subst hc1
      have hsplitP : makePart (String.mk ('{' :: cs)) = some (.param ⟨ys⟩) := by
        show (if '{' = '{' ∧ cs.getLast? = some '}'
              then some (Part.param ⟨cs.dropLast⟩)
              else some (.const (String.mk ('{' :: cs)))) = some (.param ⟨ys⟩)
        rw [if_pos ⟨rfl, hc2⟩, hdrop]
      refine ⟨?_, ?_, ?_, ?_⟩
      · rw [hsplitP]
        simp [String.ext_iff]
      · intro n
        rw [hsplitP]
        constructor
        · intro h
          injection h with h
          injection h with h
          exact ⟨ys, by rw [hdata, hys], h.symm⟩
        · rintro ⟨mid, hmid, rfl⟩
          rw [hdata] at hmid
          have hcs : cs = mid ++ ['}'] := by injection hmid
          rw [hys] at hcs
          rw [List.append_cancel_right hcs]
      · intro s h
        rw [hsplitP] at h
        injection h with h
        exact Part.noConfusion h
      · rw [hsplitP]
        constructor
        · intro h
          injection h with h
          exact Part.noConfusion h
        · rintro ⟨-, hno⟩
          exact absurd ⟨ys, by rw [hdata, hys]⟩ hno
    · have hsplitC : makePart (String.mk (c :: cs)) = some (.const (String.mk (c :: cs))) := by
        show (if c = '{' ∧ cs.getLast? = some '}'
              then some (Part.param ⟨cs.dropLast⟩)
              else some (.const (String.mk (c :: cs)))) = _
        rw [if_neg hc]
      have hnomid : ¬∃ mid, (String.mk (c :: cs)).toList = '{' :: (mid ++ ['}']) := by
        rintro ⟨mid, hmid⟩
        rw [hdata] at hmid
        have hc1 : c = '{' := by injection hmid
        have hc2 : cs = mid ++ ['}'] := by injection hmid
        exact absurd ⟨hc1, by rw [hc2]; exact List.getLast?_concat mid⟩ hc
      refine ⟨?_, ?_, ?_, ?_⟩
      · rw [hsplitC]
        simp [String.ext_iff]
      · intro n
        rw [hsplitC]
        constructor
        · intro h
          injection h with h
          exact Part.noConfusion h
        · rintro ⟨mid, hmid, rfl⟩
          exact absurd ⟨mid, hmid⟩ hnomid
      · intro s h
        rw [hsplitC] at h
        injection h with h
        injection h with h
        exact h.symm
      · exact ⟨fun _ => ⟨hne, hnomid⟩, fun _ => hsplitC⟩

/-! ## The progress flag (claim C1) -/

/-- C1, counterexample.  The claim says the progress flag is set iff the merge
added a new value or created a new entry.  Processing `epKnown` from `stKnown`
(which already knows the only value `"v"` the response yields): fetch and
extraction succeed, the merge adds nothing (`params` is unchanged) and no
entry is created, yet the flag is `true` after the pass. -/
theorem c1_counterexample :
    (download_step oracleKnown [epKnown] stKnown).map
        (fun x => (x.1.loop, x.1.params, x.2)) =
      some (true, stKnown.params,
        [.fetched 0 [] "X" true, .saved "X" true, .extracted "X" true]) := by
  decide

/-- C1, amended.  After processing one binding the progress flag is set iff it
was already set or the binding reached the merge code: its dedup key was
fresh, its URL rendered, and both the fetch and the extraction succeeded —
regardless of whether the merge added any value not previously present or
created any entry (lines 160-169 set `self.loop = True` unconditionally after
a successful extraction). -/
theorem c1_amended (O : Oracle) (idx : Nat) (u : APIUrl) (st : CrawlState) (b : Binding)
    (st' : CrawlState) (ev : List Event)
    (h : processBinding O idx u st b = some (st', ev)) :
    st'.loop = (st.loop || bindingMerges O idx u st b) := by
  unfold processBinding at h
  unfold bindingMerges
  split at h
  · rename_i hmem
    injection h with h
    injection h with h1 h2
    rw [if_pos hmem, ← h1]
    simp
  · rename_i hmem
    rw [if_neg hmem]
    split at h
    · exact absurd h (by simp)
    · rename_i url hurl
      split at h
      · injection h with h
        injection h with h1 h2
        rw [← h1]
        simp
      · rename_i r hr
        split at h
        · rename_i hnone
          injection h with h
          injection h with h1 h2
          rw [← h1]
          simp [hnone]
        · rename_i nps hnps
          injection h with h
          injection h with h1 h2
          rw [← h1]
          simp [hnps]

/-- C1, amended, witness at a concrete input. -/
theorem c1_amended_witness :
    (⟨[("p", ["v"])], [(0, [])], true⟩ : CrawlState).loop =
      (stKnown.loop || bindingMerges oracleKnown 0 epKnown stKnown []) :=
  c1_amended oracleKnown 0 epKnown stKnown []
    ⟨[("p", ["v"])], [(0, [])], true⟩
    [.fetched 0 [] "X" true, .saved "X" true, .extracted "X" true]
    (by decide)

/-! ## Issued-set bookkeeping

Each level of the scheduler satisfies the same accounting: the issued set
grows by exactly the dedup keys of the fetches of the produced trace, every
fetched key was fresh when it was issued, and duplicate-freeness of the
issued set is preserved. -/

/-- Distribution of `fetchKeys` over trace concatenation. -/
theorem fetchKeys_append (a b : List Event) :
    fetchKeys (a ++ b) = fetchKeys a ++ fetchKeys b := by
  unfold fetchKeys
  exact List.filterMap_append a b _

/-- Accounting for one binding. -/
theorem processBinding_spec (O : Oracle) (idx : Nat) (u : APIUrl) (st : CrawlState)
    (b : Binding) (st' : CrawlState) (ev : List Event)
    (h : processBinding O idx u st b = some (st', ev)) :
    st'.done = st.done ++ fetchKeys ev ∧
    (∀ k ∈ fetchKeys ev, k ∉ st.done ∧ k = todoOf idx b) ∧
    (st.done.Nodup → st'.done.Nodup) := by
  unfold processBinding at h
  split at h
  · injection h with h
    injection h with h1 h2
    rw [← h1, ← h2]
    simp [fetchKeys]
  · rename_i hmem
    have key : st.done ++ [todoOf idx b] = st.done ++ [todoOf idx b] := rfl
    have hnodup : st.done.Nodup → (st.done ++ [todoOf idx b]).Nodup := by
      intro hn
      rw [List.nodup_append]
      refine ⟨hn, List.nodup_singleton _, ?_⟩
      intro a ha hb
      rw [List.mem_singleton] at hb
      exact hmem (hb ▸ ha)
    split at h
    · exact absurd h (by simp)
    · split at h
      · injection h with h
        injection h with h1 h2
        rw [← h1, ← h2]
        exact ⟨rfl, fun k hk => by rw [List.mem_singleton.mp hk]; exact ⟨hmem, rfl⟩, hnodup⟩
      · split at h
        · injection h with h
          injection h with h1 h2
          rw [← h1, ← h2]
          exact ⟨rfl, fun k hk => by rw [List.mem_singleton.mp hk]; exact ⟨hmem, rfl⟩, hnodup⟩
        · injection h with h
          injection h with h1 h2
          rw [← h1, ← h2]
          exact ⟨rfl, fun k hk => by rw [List.mem_singleton.mp hk]; exact ⟨hmem, rfl⟩, hnodup⟩

/-- Accounting for the per-endpoint binding loop. -/
theorem processBindings_spec (O : Oracle) (idx : Nat) (u : APIUrl) :
    ∀ (bs : List Binding) (st st' : CrawlState) (evs : List Event),
    processBindings O idx u st bs = some (st', evs) →
    st'.done = st.done ++ fetchKeys evs ∧
    (∀ k ∈ fetchKeys evs, k ∉ st.done ∧ k.1 = idx) ∧
    (st.done.Nodup → st'.done.Nodup) := by
  intro bs
  induction bs with
  | nil =>
    intro st st' evs h
    injection h with h
    injection h with h1 h2
    rw [← h1, ← h2]
    simp [fetchKeys]
  | cons b bs ih =>
    intro st st' evs h
    unfold processBindings at h
    split at h
    · exact absurd h (by simp)
    · rename_i st1 ev hpb
      split at h
      · exact absurd h (by simp)
      · rename_i st2 evs2 hrest
        injection h with h
        injection h with h1 h2
        obtain ⟨e1, f1, n1⟩ := processBinding_spec O idx u st b st1 ev hpb
        obtain ⟨e2, f2, n2⟩ := ih st1 st2 evs2 hrest
        rw [← h1, ← h2]
        refine ⟨?_, ?_, fun hn => n2 (n1 hn)⟩
        · rw [e2, e1, fetchKeys_append, List.append_assoc]
        · intro k hk
          rw [fetchKeys_append, List.mem_append] at hk
          rcases hk with hk | hk
          · obtain ⟨hf, he⟩ := f1 k hk
            exact ⟨hf, by rw [he, todoOf]⟩
          · obtain ⟨hf, hi⟩ := f2 k hk
            rw [e1, List.mem_append] at hf
            exact ⟨fun hmem => hf (Or.inl hmem), hi⟩

/-- Accounting for one endpoint. -/
theorem download_url_spec (O : Oracle) (idx : Nat) (u : APIUrl) (st st' : CrawlState)
    (ev : List Event) (h : download_url O idx u st = some (st', ev)) :
    st'.done = st.done ++ fetchKeys ev ∧
    (∀ k ∈ fetchKeys ev, k ∉ st.done ∧ k.1 = idx) ∧
    (st.done.Nodup → st'.done.Nodup) := by
  unfold download_url at h
  split at h
  · exact processBindings_spec O idx u _ st st' ev h
  · injection h with h
    injection h with h1 h2
    rw [← h1, ← h2]
    simp [fetchKeys]

/-- Accounting for one pass over an indexed endpoint list. -/
theorem downloadUrls_spec (O : Oracle) :
    ∀ (L : List (Nat × APIUrl)) (st st' : CrawlState) (evs : List Event),
    downloadUrls O L st = some (st', evs) →
    st'.done = st.done ++ fetchKeys evs ∧
    (∀ k ∈ fetchKeys evs, k ∉ st.done ∧ k.1 ∈ L.map Prod.fst) ∧
    (st.done.Nodup → st'.done.Nodup) := by
  intro L
  induction L with
  | nil =>
    intro st st' evs h
    injection h with h
    injection h with h1 h2
    rw [← h1, ← h2]
    simp [fetchKeys]
  | cons p rest ih =>
    obtain ⟨idx, u⟩ := p
    intro st st' evs h
    unfold downloadUrls at h
    split at h
    · exact absurd h (by simp)
    · rename_i st1 ev hdu
      split at h
      · exact absurd h (by simp)
      · rename_i st2 evs2 hrest
        injection h with h
        injection h with h1 h2
        obtain ⟨e1, f1, n1⟩ := download_url_spec O idx u st st1 ev hdu
        obtain ⟨e2, f2, n2⟩ := ih st1 st2 evs2 hrest
        rw [← h1, ← h2]
        refine ⟨?_, ?_, fun hn => n2 (n1 hn)⟩
        · rw [e2, e1, fetchKeys_append, List.append_assoc]
        · intro k hk
          rw [fetchKeys_append, List.mem_append] at hk
          rcases hk with hk | hk
          · obtain ⟨hf, hi⟩ := f1 k hk
            exact ⟨hf, by simp [hi]⟩
          · obtain ⟨hf, hi⟩ := f2 k hk
            rw [e1, List.mem_append] at hf
            exact ⟨fun hmem => hf (Or.inl hmem), by simp [hi]⟩

/-- Accounting for one full pass of `download_step`. -/
theorem download_step_spec (O : Oracle) (urls : List APIUrl) (st st' : CrawlState)
    (ev : List Event) (h : download_step O urls st = some (st', ev)) :
    st'.done = st.done ++ fetchKeys ev ∧
    (∀ k ∈ fetchKeys ev, k ∉ st.done) ∧
    (st.done.Nodup → st'.done.Nodup) := by
  obtain ⟨e, f, n⟩ := downloadUrls_spec O (enumFrom 0 urls) _ st' ev h
  exact ⟨e, fun k hk => (f k hk).1, n⟩

/-- Accounting for the whole fixpoint loop. -/
theorem downloadFuel_spec (O : Oracle) (urls : List APIUrl) :
    ∀ (fuel : Nat) (st st' : CrawlState) (evs : List Event) (r : Nat),
    downloadFuel O urls fuel st = some (st', evs, r) →
    st'.done = st.done ++ fetchKeys evs ∧
    (∀ k ∈ fetchKeys evs, k ∉ st.done) ∧
    (st.done.Nodup → st'.done.Nodup) := by
  intro fuel
  induction fuel with
  | zero =>
    intro st st' evs r h
    unfold downloadFuel at h
    split at h
    · exact absurd h (by simp)
    · injection h with h
      injection h with h1 h2
      injection h2 with h2 h3
      rw [← h1, ← h2]
      simp [fetchKeys]
  | succ fuel ih =>
    intro st st' evs r h
    unfold downloadFuel at h
    split at h
    · split at h
      · exact absurd h (by simp)
      · rename_i st1 ev hstep
        split at h
        · exact absurd h (by simp)
        · rename_i st2 evs2 r2 hrest
          injection h with h
          injection h with h1 h2
          injection h2 with h2 h3
          obtain ⟨e1, f1, n1⟩ := download_step_spec O urls st st1 ev hstep
          obtain ⟨e2, f2, n2⟩ := ih st1 st2 evs2 r2 hrest
          rw [← h1, ← h2]
          refine ⟨?_, ?_, fun hn => n2 (n1 hn)⟩
          · rw [e2, e1, fetchKeys_append, List.append_assoc]
          · intro k hk
            rw [fetchKeys_append, List.mem_append] at hk
            rcases hk with hk | hk
            · exact f1 k hk
            · have hf := f2 k hk
              rw [e1, List.mem_append] at hf
              exact fun hmem => hf (Or.inl hmem)
    · injection h with h
      injection h with h1 h2
      injection h2 with h2 h3
      rw [← h1, ← h2]
      simp [fetchKeys]

/-! ## Deduplication (claim C2) -/

/-- C2.  Over an entire crawl started from the empty class state, the dedup
keys `(endpoint index, ordered tuple of bound values)` of the issued fetches
are pairwise distinct: a binding whose key has been added to the issued set is
skipped before any fetch in every later occurrence, so at most one fetch is
ever issued per concrete binding. -/
theorem c2_dedup (O : Oracle) (urls : List APIUrl) (fuel : Nat)
    (st' : CrawlState) (tr : List Event) (r : Nat)
    (h : downloadFuel O urls fuel initState = some (st', tr, r)) :
    (fetchKeys tr).Nodup := by
  obtain ⟨he, -, hn⟩ := downloadFuel_spec O urls fuel initState st' tr r h
  have h2 := hn List.nodup_nil
  rw [he] at h2
  simpa using h2

/-- C2, witness: a crawl with no endpoints issues no fetch at all. -/
theorem c2_dedup_witness :
    (fetchKeys []).Nodup :=
  c2_dedup oracleNone [] 1 ⟨[], [], false⟩ [] 1 (by decide)

/-! ## Per-binding failure policy (claim C8) -/

/-- C8.  For a binding whose URL renders, the per-binding processing never
aborts the crawl and follows exactly the recovery policy: an already-issued
key is skipped with no action; on fetch failure the binding is abandoned with
no persist attempt and no extraction attempt; on fetch success the persist is
attempted and, whatever its outcome, extraction is attempted; on extraction
failure no parameter merge occurs; on extraction success the merge runs and
the progress flag is set. -/
theorem c8_error_policy (O : Oracle) (idx : Nat) (u : APIUrl) (st : CrawlState)
    (b : Binding) (url : String) (h : u.binded b = some url) :
    processBinding O idx u st b ≠ none ∧
    (∀ st' ev, processBinding O idx u st b = some (st', ev) →
      (todoOf idx b ∈ st.done ∧ st' = st ∧ ev = []) ∨
      (todoOf idx b ∉ st.done ∧ O.fetch url = none ∧
        ev = [.fetched idx (b.map (·.2)) url false] ∧
        st' = ⟨st.params, st.done ++ [todoOf idx b], st.loop⟩) ∨
      (∃ r, todoOf idx b ∉ st.done ∧ O.fetch url = some r ∧
        u.provide O.parse r = none ∧
        ev = [.fetched idx (b.map (·.2)) url true, .saved url (O.save url r),
              .extracted url false] ∧
        st' = ⟨st.params, st.done ++ [todoOf idx b], st.loop⟩) ∨
      (∃ r nps, todoOf idx b ∉ st.done ∧ O.fetch url = some r ∧
        u.provide O.parse r = some nps ∧
        ev = [.fetched idx (b.map (·.2)) url true, .saved url (O.save url r),
              .extracted url true] ∧
        st' = ⟨paramsMergeAll st.params nps, st.done ++ [todoOf idx b], true⟩)) := by
  constructor
  · unfold processBinding
    split
    · simp
    · split
      · rename_i hnone
        rw [h] at hnone
        exact absurd hnone (by simp)
      · split
        · simp
        · split
          · simp
          · simp
  · intro st' ev hpb
    unfold processBinding at hpb
    split at hpb
    · rename_i hmem
      injection hpb with hpb
      injection hpb with h1 h2
      exact Or.inl ⟨hmem, h1.symm, h2.symm⟩
    · rename_i hmem
      split at hpb
      · exact absurd hpb (by simp)
      · rename_i url' hurl
        rw [h] at hurl
        injection hurl with hurl
        cases hurl
        split at hpb
        · rename_i hf
          injection hpb with hpb
          injection hpb with h1 h2
          exact Or.inr (Or.inl ⟨hmem, hf, h2.symm, h1.symm⟩)
        · rename_i r hf
          split at hpb
          · rename_i hp
            injection hpb with hpb
            injection hpb with h1 h2
            exact Or.inr (Or.inr (Or.inl ⟨r, hmem, hf, hp, h2.symm, h1.symm⟩))
          · rename_i nps hp
            injection hpb with hpb
            injection hpb with h1 h2
            exact Or.inr (Or.inr (Or.inr ⟨r, nps, hmem, hf, hp, h2.symm, h1.symm⟩))

/-- C8, witness: per-binding processing of a failing fetch does not abort the
crawl. -/
theorem c8_error_policy_witness :
    processBinding oracleNone 0 epConst initState [] ≠ none :=
  (c8_error_policy oracleNone 0 epConst initState [] "W" (by decide)).1

/-! ## Crawl state lifecycle (claim C9) -/

/-- C9, counterexample.  The claim says a second Scheduler in the same process
starts again from empty state.  `params`, `done` are class attributes: the
first crawl over `urlsOne` ends with a non-empty store and issued set, and a
second crawl over the very same endpoint list starts from that shared state —
it issues no fetch at all (empty trace) although a crawl from empty state
issues one. -/
theorem c9_counterexample :
    crawlFrom oracleOne urlsOne 5 ([], []) =
      some (⟨[("p", ["v"])], [(0, [])], false⟩,
        [.fetched 0 [] "A" true, .saved "A" true, .extracted "A" true], 2) ∧
    crawlFrom oracleOne urlsOne 5
        (sharedOf ⟨[("p", ["v"])], [(0, [])], false⟩) =
      some (⟨[("p", ["v"])], [(0, [])], false⟩, [], 1) ∧
    (sharedOf ⟨[("p", ["v"])], [(0, [])], false⟩).1 ≠ [] := by
  refine ⟨by decide, by decide, by decide⟩

/-- C9, amended.  The Parameter Store and the Issued-Request Set are
class-level state shared by all Scheduler instances in the process: a later
crawl starts from the accumulated `params` and `done` of earlier crawls (only
the loop flag reads the untouched class value `True`), and a dedup key
inherited in the shared issued set is never fetched again by the later
crawl. -/
theorem c9_amended (O : Oracle) (urls : List APIUrl) (fuel : Nat)
    (shared : Params × List (Nat × List String)) (st' : CrawlState)
    (tr : List Event) (r : Nat) (k : Nat × List String)
    (hk : k ∈ shared.2)
    (h : crawlFrom O urls fuel shared = some (st', tr, r)) :
    ∀ url ok, Event.fetched k.1 k.2 url ok ∉ tr := by
  intro url ok hmem
  obtain ⟨-, hf, -⟩ :=
    downloadFuel_spec O urls fuel ⟨shared.1, shared.2, true⟩ st' tr r h
  have hkey : (k.1, k.2) ∈ fetchKeys tr := by
    rw [fetchKeys, List.mem_filterMap]
    exact ⟨Event.fetched k.1 k.2 url ok, hmem, rfl⟩
  exact hf (k.1, k.2) hkey hk

/-- C9, amended, witness: the key issued by the first crawl over `urlsOne` is
never fetched by the second crawl. -/
theorem c9_amended_witness :
    Event.fetched 0 [] "A" true ∉ ([] : List Event) :=
  c9_amended oracleOne urlsOne 5 ([("p", ["v"])], [(0, [])])
    ⟨[("p", ["v"])], [(0, [])], false⟩ [] 1 (0, [])
    (by decide) (by decide) "A" true

/-! ## Cartesian-product enumeration (claim C4) -/

/-- Summing a constant over a list. -/
theorem sum_map_const_nat {α : Type} (l : List α) (c : Nat) :
    (l.map (fun _ => c)).sum = l.length * c := by
  induction l with
  | nil => simp
  | cons a l ih => simp [ih, Nat.succ_mul, Nat.add_comm]

/-- The product enumeration has exactly as many tuples as the product of the
factor cardinalities. -/
theorem listProduct_length (ls : List (List String)) :
    (listProduct ls).length = (ls.map List.length).prod := by
  induction ls with
  | nil => rfl
  | cons l ls ih =>
    rw [listProduct, List.length_flatMap]
    simp only [Function.comp_def, List.length_map]
    rw [sum_map_const_nat, ih, List.map_cons, List.prod_cons]

/-- C4, counterexample.  The claim says an endpoint referencing the same
parameter twice, with `m` known values, yields `m*m` candidate bindings in
which the two occurrences can be bound to different values.  With
`params = {"a": {"1","2"}}` and `deps = ["a","a"]` the code enumerates four
product tuples, but `dict(zip(deps, x))` collapses them to single-entry
bindings holding only the *last* value: the two occurrences are always bound
to the same value, only two fetches are issued, and their URLs are `"11"` and
`"22"` — never `"12"` or `"21"`. -/
theorem c4_counterexample :
    allParamValues [("a", ["1", "2"])] ["a", "a"] =
      [[("a", "1")], [("a", "2")], [("a", "1")], [("a", "2")]] ∧
    (download_url oracleTrivial 0 epDupDep stDup).map (fun x => fetchUrls x.2) =
      some ["11", "22"] := by
  refine ⟨by decide, by decide⟩

/-- C4, amended.  The enumeration walks the full Cartesian product of the
dependencies' value sets in dependency order, duplicate names contributing
their own factor to the *tuple count* (`m*m` tuples for a duplicated name);
but each tuple is collapsed through `dict(zip(...))`, so a duplicated name is
bound once, to the tuple's last value, and both occurrences render equal.
For two distinct dependencies with cardinalities 2 and 3 the endpoint issues
exactly `2*3 = 6` fetches from a fresh issued set, and `6 - 1 = 5` when one
of the six bindings is already issued. -/
theorem c4_amended :
    (∀ (ps : Params) (pnames : List String),
      (allParamValues ps pnames).length =
        (pnames.map (fun d => (getVals ps d).length)).prod) ∧
    (∀ (a v1 v2 : String), dictZip [a, a] [v1, v2] = [(a, v2)]) ∧
    (download_url oracleTrivial 0 epTwoDeps stTwoDeps).map
        (fun x => (fetchUrls x.2).length) = some (2 * 3) ∧
    (download_url oracleTrivial 0 epTwoDeps stTwoDepsIssued).map
        (fun x => (fetchUrls x.2).length) = some (2 * 3 - 1) := by
  refine ⟨?_, ?_, by decide, by decide⟩
  · intro ps pnames
    rw [allParamValues, List.length_map, listProduct_length, List.map_map]
    rfl
  · intro a v1 v2
    simp [dictZip, insertAll, dictInsert]

/-! ## Rendering never misses a binding (claim C10) -/

/-- Lookup after a dict insertion: the inserted key answers with the new
value, every other key is unaffected. -/
theorem alookup_dictInsert (d : Binding) (k v k' : String) :
    alookup (dictInsert d k v) k' = if k = k' then some v else alookup d k' := by
  induction d with
  | nil => simp [dictInsert, alookup]
  | cons e d ih =>
    obtain ⟨k₀, v₀⟩ := e
    by_cases h : k₀ = k
    · subst h
      by_cases h' : k₀ = k' <;> simp [dictInsert, alookup, h']
    · by_cases h' : k₀ = k' <;> by_cases h'' : k = k' <;>
        simp_all [dictInsert, alookup]

/-- Keys present before `insertAll` stay present. -/
theorem alookup_insertAll_preserve :
    ∀ (l : List (String × String)) (d : Binding) (k : String),
    (alookup d k).isSome → (alookup (insertAll d l) k).isSome := by
  intro l
  induction l with
  | nil => intro d k h; exact h
  | cons e rest ih =>
    obtain ⟨k₁, v₁⟩ := e
    intro d k h
    apply ih
    rw [alookup_dictInsert]
    split
    · rfl
    · exact h

/-- Every key zipped into the dict is present afterwards. -/
theorem alookup_insertAll_mem :
    ∀ (l : List (String × String)) (d : Binding) (k v : String),
    (k, v) ∈ l → (alookup (insertAll d l) k).isSome := by
  intro l
  induction l with
  | nil => intro d k v h; cases h
  | cons e rest ih =>
    obtain ⟨k₁, v₁⟩ := e
    intro d k v h
    rcases List.mem_cons.mp h with h | h
    · injection h with h1 h2
      subst h1
      have hred : insertAll d ((k, v₁) :: rest) = insertAll (dictInsert d k v₁) rest := rfl
      rw [hred]
      apply alookup_insertAll_preserve
      rw [alookup_dictInsert]
      simp
    · exact ih (dictInsert d k₁ v₁) k v h

/-- A member of the left list of a full-length zip appears as a first
component. -/
theorem mem_zip_left :
    ∀ (ks vs : List String) (k : String), k ∈ ks → ks.length = vs.length →
    ∃ v, (k, v) ∈ ks.zip vs := by
  intro ks
  induction ks with
  | nil => intro vs k h; cases h
  | cons k₀ ks ih =>
    intro vs k h hlen
    cases vs with
    | nil => cases hlen
    | cons v₀ vs =>
      rcases List.mem_cons.mp h with h | h
      · exact ⟨v₀, by rw [h]; exact List.mem_cons_self _ _⟩
      · obtain ⟨v, hv⟩ := ih vs k h (by injection hlen)
        exact ⟨v, List.mem_cons_of_mem _ hv⟩

/-- Each dependency name is a key of the binding built from a full-length
product tuple. -/
theorem alookup_dictZip_isSome (ks vs : List String) (k : String)
    (hk : k ∈ ks) (hlen : ks.length = vs.length) :
    (alookup (dictZip ks vs) k).isSome := by
  obtain ⟨v, hv⟩ := mem_zip_left ks vs k hk hlen
  exact alookup_insertAll_mem (ks.zip vs) [] k v hv

/-- Tuples of the product have exactly one component per factor. -/
theorem mem_listProduct_length :
    ∀ (ls : List (List String)) (x : List String),
    x ∈ listProduct ls → x.length = ls.length := by
  intro ls
  induction ls with
  | nil =>
    intro x h
    rw [listProduct, List.mem_singleton] at h
    subst h
    rfl
  | cons l ls ih =>
    intro x h
    rw [listProduct, List.mem_flatMap] at h
    obtain ⟨v, -, h⟩ := h
    rw [List.mem_map] at h
    obtain ⟨y, hy, rfl⟩ := h
    simp [ih y hy]

/-- A parameter part's name is among the template's dependencies. -/
theorem param_mem_dependencies (u : APIUrl) (n : String)
    (h : Part.param n ∈ u.parts) : n ∈ u.dependencies := by
  rw [APIUrl.dependencies, List.mem_flatMap]
  exact ⟨Part.param n, h, by simp [Part.deps]⟩

/-- Rendering succeeds as soon as every part can be bound. -/
theorem bindParts_isSome :
    ∀ (parts : List Part) (b : Binding),
    (∀ p ∈ parts, (p.binded b).isSome) → (bindParts b parts).isSome := by
  intro parts
  induction parts with
  | nil => intro b h; rfl
  | cons p ps ih =>
    intro b h
    have hp := h p (List.mem_cons_self _ _)
    obtain ⟨s, hs⟩ := Option.isSome_iff_exists.mp hp
    have hps := ih b (fun q hq => h q (List.mem_cons_of_mem _ hq))
    obtain ⟨ss, hss⟩ := Option.isSome_iff_exists.mp hps
    rw [bindParts, hs, hss]
    rfl

/-- Every candidate binding enumerated by `all_param_values` binds every
dependency name, so the URL of the `download_url` loop always renders: the
`KeyError` branch of `ParameterPart.binded` is unreachable from the
scheduler. -/
theorem binded_isSome_of_mem_allParamValues (u : APIUrl) (ps : Params)
    (b : Binding) (hb : b ∈ allParamValues ps u.dependencies) :
    (u.binded b).isSome := by
  rw [allParamValues, List.mem_map] at hb
  obtain ⟨x, hx, rfl⟩ := hb
  have hlen : u.dependencies.length = x.length := by
    rw [mem_listProduct_length _ x hx, List.length_map]
  rw [APIUrl.binded]
  rw [show ((bindParts (dictZip u.dependencies x) u.parts).map String.join).isSome =
      (bindParts (dictZip u.dependencies x) u.parts).isSome from Option.isSome_map ..]
  apply bindParts_isSome
  intro p hp
  cases p with
  | const v => rfl
  | param n =>
    exact alookup_dictZip_isSome u.dependencies x n
      (param_mem_dependencies u n hp) hlen

/-- Totality of the per-binding step whenever the URL renders. -/
theorem processBinding_total (O : Oracle) (idx : Nat) (u : APIUrl)
    (st : CrawlState) (b : Binding) (h : (u.binded b).isSome) :
    processBinding O idx u st b ≠ none := by
  intro hnone
  unfold processBinding at hnone
  split at hnone
  · simp at hnone
  · split at hnone
    · rename_i hb
      rw [hb] at h
      simp at h
    · split at hnone
      · simp at hnone
      · split at hnone
        · simp at hnone
        · simp at hnone

/-- Totality of the per-endpoint binding loop. -/
theorem processBindings_total (O : Oracle) (idx : Nat) (u : APIUrl) :
    ∀ (bs : List Binding) (st : CrawlState),
    (∀ b ∈ bs, (u.binded b).isSome) →
    processBindings O idx u st bs ≠ none := by
  intro bs
  induction bs with
  | nil => intro st h hnone; simp [processBindings] at hnone
  | cons b rest ih =>
    intro st h hnone
    unfold processBindings at hnone
    split at hnone
    · exact processBinding_total O idx u st b (h b (List.mem_cons_self _ _)) (by assumption)
    · split at hnone
      · rename_i hrest
        exact ih _ (fun q hq => h q (List.mem_cons_of_mem _ hq)) hrest
      · simp at hnone

/-- Totality of `download_url`: no state can make it crash. -/
theorem download_url_total (O : Oracle) (idx : Nat) (u : APIUrl) (st : CrawlState) :
    download_url O idx u st ≠ none := by
  unfold download_url
  split
  · exact processBindings_total O idx u _ st
      (fun b hb => binded_isSome_of_mem_allParamValues u st.params b hb)
  · simp

/-- Totality of a pass over an endpoint list. -/
theorem downloadUrls_total (O : Oracle) :
    ∀ (L : List (Nat × APIUrl)) (st : CrawlState),
    downloadUrls O L st ≠ none := by
  intro L
  induction L with
  | nil => intro st hnone; simp [downloadUrls] at hnone
  | cons p rest ih =>
    obtain ⟨idx, u⟩ := p
    intro st hnone
    unfold downloadUrls at hnone
    split at hnone
    · exact download_url_total O idx u st (by assumption)
    · split at hnone
      · rename_i hrest
        exact ih _ hrest
      · simp at hnone

/-- Totality of one full pass. -/
theorem download_step_total (O : Oracle) (urls : List APIUrl) (st : CrawlState) :
    download_step O urls st ≠ none :=
  downloadUrls_total O (enumFrom 0 urls) _

/-- C10.  Inside the scheduler's per-endpoint processing, rendering never
fails from a missing binding: every candidate binding enumerated by
`all_param_values` maps every dependency name (hence every `Parameter`
segment's name) to a value, so `url.binded(url_params)` always succeeds and
the `KeyError`/crash branch is unreachable from `download_url`, which
therefore never fails. -/
theorem c10_render_never_fails (O : Oracle) (idx : Nat) (u : APIUrl) (st : CrawlState) :
    (∀ b ∈ allParamValues st.params u.dependencies, (u.binded b).isSome) ∧
    download_url O idx u st ≠ none :=
  ⟨fun b hb => binded_isSome_of_mem_allParamValues u st.params b hb,
   download_url_total O idx u st⟩

/-- C10, witness at a concrete endpoint and state. -/
theorem c10_render_never_fails_witness :
    download_url oracleNone 0 epConst initState ≠ none :=
  (c10_render_never_fails oracleNone 0 epConst initState).2

/-! ## Dependency-free endpoints fetch in the first round (claim C6) -/

/-- Indices produced by `enumFrom` are at least the starting index. -/
theorem mem_enumFrom_ge :
    ∀ (l : List APIUrl) (n i : Nat) (u : APIUrl), (i, u) ∈ enumFrom n l → n ≤ i := by
  intro l
  induction l with
  | nil => intro n i u h; cases h
  | cons u₀ l ih =>
    intro n i u h
    rcases List.mem_cons.mp h with h | h
    · injection h with h1 h2
      omega
    · exact Nat.le_of_succ_le (ih (n + 1) i u h)

/-- A template with no dependencies has only constant parts, so it renders
under any binding. -/
theorem binded_isSome_of_deps_nil (u : APIUrl) (hdeps : u.dependencies = [])
    (b : Binding) : (u.binded b).isSome := by
  rw [APIUrl.binded]
  rw [show ((bindParts b u.parts).map String.join).isSome =
      (bindParts b u.parts).isSome from Option.isSome_map ..]
  apply bindParts_isSome
  intro p hp
  cases p with
  | const v => rfl
  | param n =>
    exact absurd (param_mem_dependencies u n hp) (by rw [hdeps]; simp)

/-- A fresh binding that renders always produces a fetch event (successful or
not). -/
theorem processBinding_fetched (O : Oracle) (idx : Nat) (u : APIUrl)
    (st st' : CrawlState) (b : Binding) (ev : List Event)
    (h : processBinding O idx u st b = some (st', ev))
    (hfresh : todoOf idx b ∉ st.done) (hb : (u.binded b).isSome) :
    ∃ url ok, Event.fetched idx (b.map (·.2)) url ok ∈ ev := by
  unfold processBinding at h
  rw [if_neg hfresh] at h
  split at h
  · rename_i hnone
    rw [hnone] at hb
    simp at hb
  · rename_i url hurl
    split at h
    · injection h with h
      injection h with h1 h2
      exact ⟨url, false, by rw [← h2]; exact List.mem_cons_self _ _⟩
    · split at h
      · injection h with h
        injection h with h1 h2
        exact ⟨url, true, by rw [← h2]; exact List.mem_cons_self _ _⟩
      · injection h with h
        injection h with h1 h2
        exact ⟨url, true, by rw [← h2]; exact List.mem_cons_self _ _⟩

/-- In a pass whose issued set only holds indices below the enumeration
start, every dependency-free endpoint of the list gets a fetch event. -/
theorem downloadUrls_nodeps_fetch (O : Oracle) :
    ∀ (l : List APIUrl) (n : Nat) (st st' : CrawlState) (tr : List Event)
      (i : Nat) (u : APIUrl),
    (∀ t ∈ st.done, t.1 < n) →
    (i, u) ∈ enumFrom n l →
    u.dependencies = [] →
    downloadUrls O (enumFrom n l) st = some (st', tr) →
    ∃ url ok, Event.fetched i [] url ok ∈ tr := by
  intro l
  induction l with
  | nil => intro n st st' tr i u _ hm; cases hm
  | cons u₀ l ih =>
    intro n st st' tr i u hlt hm hdeps h
    rw [show enumFrom n (u₀ :: l) = (n, u₀) :: enumFrom (n + 1) l from rfl] at hm h
    unfold downloadUrls at h
    split at h
    · simp at h
    · rename_i st1 ev hdu
      split at h
      · simp at h
      · rename_i st2 evs hrest
        injection h with h
        injection h with h1 h2
        rcases List.mem_cons.mp hm with hm | hm
        · injection hm with hi hu
          subst hi
          subst hu
          unfold download_url at hdu
          rw [hdeps] at hdu
          split at hdu
          · rename_i hall
            have hfresh : todoOf i ([] : Binding) ∉ st.done := by
              intro hmem
              exact absurd (hlt _ hmem) (by simp [todoOf])
            have hone : allParamValues st.params [] = [[]] := rfl
            rw [hone] at hdu
            unfold processBindings at hdu
            split at hdu
            · exact absurd (by assumption)
                (processBinding_total O i u st []
                  (binded_isSome_of_deps_nil u hdeps []))
            · rename_i stx ev₀ hpb
              split at hdu
              · simp [processBindings] at hdu
              · rename_i sty evy hrest2
                have hy : processBindings O i u stx ([] : List Binding) =
                    some (stx, []) := rfl
                rw [hy] at hrest2
                injection hrest2 with hrest2
                injection hrest2 with hr1 hr2
                injection hdu with hdu
                injection hdu with hd1 hd2
                obtain ⟨url, ok, hmemf⟩ :=
                  processBinding_fetched O i u st stx [] ev₀ hpb hfresh
                    (binded_isSome_of_deps_nil u hdeps [])
                refine ⟨url, ok, ?_⟩
                rw [← h2, ← hd2]
                exact List.mem_append_left _ (List.mem_append_left _ hmemf)
          · rename_i hall
            exact absurd rfl hall
        · have hnext : ∀ t ∈ st1.done, t.1 < n + 1 := by
            obtain ⟨he, hf, -⟩ := download_url_spec O n u₀ st st1 ev hdu
            intro t ht
            rw [he, List.mem_append] at ht
            rcases ht with ht | ht
            · exact Nat.lt_succ_of_lt (hlt t ht)
            · rw [(hf t ht).2]
              omega
          obtain ⟨url, ok, hmemf⟩ := ih (n + 1) st1 st2 evs i u hnext hm hdeps hrest
          exact ⟨url, ok, by rw [← h2]; exact List.mem_append_right _ hmemf⟩

/-- C6.  An endpoint with empty `dependencies()` is eligible on the very
first round of a crawl regardless of the contents of the parameter store:
`all_param_values` forms exactly one (empty) binding for it, and the first
pass emits a fetch for it. -/
theorem c6_nodeps_first_round (O : Oracle) (urls : List APIUrl) (i : Nat)
    (u : APIUrl) (ps : Params)
    (hmem : (i, u) ∈ enumFrom 0 urls) (hdeps : u.dependencies = []) :
    allParamValues ps u.dependencies = [[]] ∧
    ∃ st' tr, download_step O urls ⟨ps, [], true⟩ = some (st', tr) ∧
      ∃ url ok, Event.fetched i [] url ok ∈ tr := by
  constructor
  · rw [hdeps]
    rfl
  · have hne := download_step_total O urls ⟨ps, [], true⟩
    obtain ⟨⟨st', tr⟩, hstep⟩ := Option.ne_none_iff_exists'.mp hne
    refine ⟨st', tr, hstep, ?_⟩
    exact downloadUrls_nodeps_fetch O urls 0 _ st' tr i u (by simp) hmem hdeps hstep

/-- C6, witness: the dependency-free endpoint `epConst` is fetched on the
first round even though every fetch fails and the store is empty. -/
theorem c6_nodeps_first_round_witness :
    allParamValues [] epConst.dependencies = [[]] ∧
    ∃ st' tr, download_step oracleNone [epConst] ⟨[], [], true⟩ = some (st', tr) ∧
      ∃ url ok, Event.fetched 0 [] url ok ∈ tr :=
  c6_nodeps_first_round oracleNone [epConst] 0 epConst [] (by decide) rfl

/-! ## Progress accounting (claim C3)

A pass that ends with the progress flag set has strictly grown the issued
set: the flag is set only right after a fresh dedup key was added. -/

/-- Progress accounting for one binding. -/
theorem processBinding_progress (O : Oracle) (idx : Nat) (u : APIUrl)
    (st st' : CrawlState) (b : Binding) (ev : List Event)
    (h : processBinding O idx u st b = some (st', ev)) :
    st.done.length ≤ st'.done.length ∧
    (st'.loop = true → st.loop = true ∨ st.done.length < st'.done.length) := by
  unfold processBinding at h
  split at h
  · injection h with h
    injection h with h1 h2
    rw [← h1]
    exact ⟨Nat.le_refl _, fun hl => Or.inl hl⟩
  · split at h
    · exact absurd h (by simp)
    · split at h
      · injection h with h
        injection h with h1 h2
        rw [← h1]
        exact ⟨by simp, fun hl => Or.inl hl⟩
      · split at h
        · injection h with h
          injection h with h1 h2
          rw [← h1]
          exact ⟨by simp, fun hl => Or.inl hl⟩
        · injection h with h
          injection h with h1 h2
          rw [← h1]
          exact ⟨by simp, fun hl => Or.inr (by simp)⟩

/-- Progress accounting composes through the binding loop. -/
theorem processBindings_progress (O : Oracle) (idx : Nat) (u : APIUrl) :
    ∀ (bs : List Binding) (st st' : CrawlState) (evs : List Event),
    processBindings O idx u st bs = some (st', evs) →
    st.done.length ≤ st'.done.length ∧
    (st'.loop = true → st.loop = true ∨ st.done.length < st'.done.length) := by
  intro bs
  induction bs with
  | nil =>
    intro st st' evs h
    injection h with h
    injection h with h1 h2
    rw [← h1]
    exact ⟨Nat.le_refl _, fun hl => Or.inl hl⟩
  | cons b bs ih =>
    intro st st' evs h
    unfold processBindings at h
    split at h
    · exact absurd h (by simp)
    · rename_i st1 ev hpb
      split at h
      · exact absurd h (by simp)
      · rename_i st2 evs2 hrest
        injection h with h
        injection h with h1 h2
        obtain ⟨le1, pr1⟩ := processBinding_progress O idx u st st1 b ev hpb
        obtain ⟨le2, pr2⟩ := ih st1 st2 evs2 hrest
        rw [← h1]
        refine ⟨Nat.le_trans le1 le2, fun hl => ?_⟩
        rcases pr2 hl with hl1 | hlt
        · rcases pr1 hl1 with hl0 | hlt
          · exact Or.inl hl0
          · exact Or.inr (Nat.lt_of_lt_of_le hlt le2)
        · exact Or.inr (Nat.lt_of_le_of_lt le1 hlt)

/-- Progress accounting for one endpoint. -/
theorem download_url_progress (O : Oracle) (idx : Nat) (u : APIUrl)
    (st st' : CrawlState) (ev : List Event)
    (h : download_url O idx u st = some (st', ev)) :
    st.done.length ≤ st'.done.length ∧
    (st'.loop = true → st.loop = true ∨ st.done.length < st'.done.length) := by
  unfold download_url at h
  split at h
  · exact processBindings_progress O idx u _ st st' ev h
  · injection h with h
    injection h with h1 h2
    rw [← h1]
    exact ⟨Nat.le_refl _, fun hl => Or.inl hl⟩

/-- Progress accounting for a pass over an endpoint list. -/
theorem downloadUrls_progress (O : Oracle) :
    ∀ (L : List (Nat × APIUrl)) (st st' : CrawlState) (evs : List Event),
    downloadUrls O L st = some (st', evs) →
    st.done.length ≤ st'.done.length ∧
    (st'.loop = true → st.loop = true ∨ st.done.length < st'.done.length) := by
  intro L
  induction L with
  | nil =>
    intro st st' evs h
    injection h with h
    injection h with h1 h2
    rw [← h1]
    exact ⟨Nat.le_refl _, fun hl => Or.inl hl⟩
  | cons p rest ih =>
    obtain ⟨idx, u⟩ := p
    intro st st' evs h
    unfold downloadUrls at h
    split at h
    · exact absurd h (by simp)
    · rename_i st1 ev hdu
      split at h
      · exact absurd h (by simp)
      · rename_i st2 evs2 hrest
        injection h with h
        injection h with h1 h2
        obtain ⟨le1, pr1⟩ := download_url_progress O idx u st st1 ev hdu
        obtain ⟨le2, pr2⟩ := ih st1 st2 evs2 hrest
        rw [← h1]
        refine ⟨Nat.le_trans le1 le2, fun hl => ?_⟩
        rcases pr2 hl with hl1 | hlt
        · rcases pr1 hl1 with hl0 | hlt
          · exact Or.inl hl0
          · exact Or.inr (Nat.lt_of_lt_of_le hlt le2)
        · exact Or.inr (Nat.lt_of_le_of_lt le1 hlt)

/-- A full pass whose resulting progress flag is set has strictly grown the
issued set (the flag is cleared at the start of the pass). -/
theorem download_step_progress (O : Oracle) (urls : List APIUrl)
    (st st' : CrawlState) (ev : List Event)
    (h : download_step O urls st = some (st', ev)) :
    st.done.length ≤ st'.done.length ∧
    (st'.loop = true → st.done.length < st'.done.length) := by
  obtain ⟨le1, pr1⟩ := downloadUrls_progress O (enumFrom 0 urls)
    { st with loop := false } st' ev h
  refine ⟨le1, fun hl => ?_⟩
  rcases pr1 hl with hfalse | hlt
  · exact absurd hfalse (by simp)
  · exact hlt

/-! ## The finite key universe bounds the issued set (claim C3) -/

/-- Membership in the bounded-length list enumeration. -/
theorem mem_listsLe (W : List String) :
    ∀ (t : List String) (k : Nat), t.length ≤ k → (∀ v ∈ t, v ∈ W) →
    t ∈ listsLe W k := by
  intro t
  induction t with
  | nil =>
    intro k _ _
    cases k with
    | zero => simp [listsLe]
    | succ k => exact List.mem_cons_self _ _
  | cons v t ih =>
    intro k hlen hmem
    cases k with
    | zero => simp at hlen
    | succ k =>
      rw [listsLe]
      apply List.mem_cons_of_mem
      rw [List.mem_flatMap]
      refine ⟨v, hmem v (List.mem_cons_self _ _), ?_⟩
      exact List.mem_map.mpr
        ⟨t, ih k (by simpa using hlen) (fun w hw => hmem w (List.mem_cons_of_mem _ hw)), rfl⟩

/-- Membership in the dedup-key universe. -/
theorem mem_todoUniverse (O : Oracle) (urls : List APIUrl) (F : List String)
    (i : Nat) (t : List String) (hi : i < urls.length)
    (hlen : t.length ≤ maxDepsLen urls)
    (hval : ∀ v ∈ t, v ∈ valueUniverse O urls F) :
    (i, t) ∈ todoUniverse O urls F := by
  rw [todoUniverse, List.mem_flatMap]
  exact ⟨i, List.mem_range.mpr hi,
    List.mem_map.mpr ⟨t, mem_listsLe _ t _ hlen hval, rfl⟩⟩

/-- Every configured endpoint has at most `maxDepsLen` dependencies. -/
theorem deps_le_maxDepsLen :
    ∀ (urls : List APIUrl) (u : APIUrl), u ∈ urls →
    u.dependencies.length ≤ maxDepsLen urls := by
  intro urls
  induction urls with
  | nil => intro u h; cases h
  | cons u₀ urls ih =>
    intro u h
    rcases List.mem_cons.mp h with h | h
    · subst h
      rw [maxDepsLen, List.map_cons, List.foldr_cons]
      exact Nat.le_max_left _ _
    · rw [maxDepsLen, List.map_cons, List.foldr_cons]
      exact Nat.le_trans (ih u h) (Nat.le_max_right _ _)

/-- A duplicate-free issued set inside the key universe is no longer than
the universe's enumeration. -/
theorem done_length_le (O : Oracle) (urls : List APIUrl) (F : List String)
    (done : List (Nat × List String)) (hn : done.Nodup)
    (hsub : ∀ t ∈ done, t ∈ todoUniverse O urls F) :
    done.length ≤ (todoUniverse O urls F).length := by
  have h1 : done.toFinset.card = done.length := List.toFinset_card_of_nodup hn
  have h2 : done.toFinset ⊆ (todoUniverse O urls F).toFinset := by
    intro a ha
    rw [List.mem_toFinset]
    exact hsub a (List.mem_toFinset.mp ha)
  calc done.length = done.toFinset.card := h1.symm
    _ ≤ (todoUniverse O urls F).toFinset.card := Finset.card_le_card h2
    _ ≤ (todoUniverse O urls F).length := List.toFinset_card_le _

/-! ## Where binding values and merged values come from (claim C3) -/

/-- An entry of a dict insertion is an old entry or carries the inserted
value. -/
theorem mem_dictInsert (d : Binding) (k v : String) (q : String × String)
    (h : q ∈ dictInsert d k v) : q ∈ d ∨ q.2 = v := by
  induction d with
  | nil =>
    rw [dictInsert, List.mem_singleton] at h
    exact Or.inr (by rw [h])
  | cons e d ih =>
    obtain ⟨k₀, v₀⟩ := e
    rw [dictInsert] at h
    split at h
    · rcases List.mem_cons.mp h with h | h
      · exact Or.inr (by rw [h])
      · exact Or.inl (List.mem_cons_of_mem _ h)
    · rcases List.mem_cons.mp h with h | h
      · exact Or.inl (by rw [h]; exact List.mem_cons_self _ _)
      · rcases ih h with h | h
        · exact Or.inl (List.mem_cons_of_mem _ h)
        · exact Or.inr h

/-- An entry of `insertAll` is an old entry or carries one of the inserted
values. -/
theorem mem_insertAll :
    ∀ (l : List (String × String)) (d : Binding) (q : String × String),
    q ∈ insertAll d l → q ∈ d ∨ q.2 ∈ l.map (·.2) := by
  intro l
  induction l with
  | nil => intro d q h; exact Or.inl h
  | cons e rest ih =>
    obtain ⟨k₁, v₁⟩ := e
    intro d q h
    rcases ih (dictInsert d k₁ v₁) q h with h | h
    · rcases mem_dictInsert d k₁ v₁ q h with h | h
      · exact Or.inl h
      · exact Or.inr (by rw [List.map_cons]; exact h ▸ List.mem_cons_self _ _)
    · exact Or.inr (by rw [List.map_cons]; exact List.mem_cons_of_mem _ h)

/-- Every value of a zip binding is one of the tuple's components. -/
theorem dictZip_values (ks vs : List String) (q : String × String)
    (h : q ∈ dictZip ks vs) : q.2 ∈ vs := by
  rcases mem_insertAll (ks.zip vs) [] q h with h | h
  · cases h
  · rw [List.mem_map] at h
    obtain ⟨⟨a, c⟩, hin, hq⟩ := h
    rw [← hq]
    exact (List.of_mem_zip hin).2

/-- Every component of a product tuple belongs to one of the factors. -/
theorem mem_listProduct_factor :
    ∀ (ls : List (List String)) (x : List String) (v : String),
    x ∈ listProduct ls → v ∈ x → ∃ l ∈ ls, v ∈ l := by
  intro ls
  induction ls with
  | nil =>
    intro x v hx hv
    rw [listProduct, List.mem_singleton] at hx
    subst hx
    cases hv
  | cons l ls ih =>
    intro x v hx hv
    rw [listProduct, List.mem_flatMap] at hx
    obtain ⟨w, hw, hx⟩ := hx
    rw [List.mem_map] at hx
    obtain ⟨y, hy, rfl⟩ := hx
    rcases List.mem_cons.mp hv with hv | hv
    · exact ⟨l, List.mem_cons_self _ _, hv ▸ hw⟩
    · obtain ⟨l', hl', hvl⟩ := ih y v hy hv
      exact ⟨l', List.mem_cons_of_mem _ hl', hvl⟩

/-- Insertion grows a dict by at most one entry. -/
theorem dictInsert_length_le (d : Binding) (k v : String) :
    (dictInsert d k v).length ≤ d.length + 1 := by
  induction d with
  | nil => simp [dictInsert]
  | cons e d ih =>
    obtain ⟨k₀, v₀⟩ := e
    rw [dictInsert]
    split
    · simp
    · simpa using Nat.succ_le_succ ih

/-- The dict built by `insertAll` has at most one entry per inserted pair. -/
theorem insertAll_length_le :
    ∀ (l : List (String × String)) (d : Binding),
    (insertAll d l).length ≤ d.length + l.length := by
  intro l
  induction l with
  | nil => intro d; simp [insertAll]
  | cons e rest ih =>
    obtain ⟨k₁, v₁⟩ := e
    intro d
    calc (insertAll (dictInsert d k₁ v₁) rest).length
        ≤ (dictInsert d k₁ v₁).length + rest.length := ih (dictInsert d k₁ v₁)
      _ ≤ d.length + 1 + rest.length :=
          Nat.add_le_add_right (dictInsert_length_le d k₁ v₁) _
      _ = d.length + (rest.length + 1) := by omega

/-- A zip binding has at most one entry per dependency name. -/
theorem dictZip_length_le (ks vs : List String) :
    (dictZip ks vs).length ≤ ks.length := by
  calc (dictZip ks vs).length ≤ [].length + (ks.zip vs).length :=
      insertAll_length_le (ks.zip vs) []
    _ ≤ ks.length := by
      rw [List.length_nil, Nat.zero_add, List.length_zip]
      exact Nat.min_le_left _ _

/-- Membership after a guarded set add. -/
theorem mem_setAdd (s : List String) (v w : String) (h : w ∈ setAdd s v) :
    w ∈ s ∨ w = v := by
  unfold setAdd at h
  split at h
  · exact Or.inl h
  · rcases List.mem_append.mp h with h | h
    · exact Or.inl h
    · exact Or.inr (List.mem_singleton.mp h)

/-- Membership after a set union. -/
theorem mem_setUnion :
    ∀ (vs s : List String) (w : String), w ∈ setUnion s vs → w ∈ s ∨ w ∈ vs := by
  intro vs
  induction vs with
  | nil => intro s w h; exact Or.inl h
  | cons v vs ih =>
    intro s w h
    have hred : setUnion s (v :: vs) = setUnion (setAdd s v) vs := rfl
    rw [hred] at h
    rcases ih (setAdd s v) w h with h | h
    · rcases mem_setAdd s v w h with h | h
      · exact Or.inl h
      · exact Or.inr (by rw [h]; exact List.mem_cons_self _ _)
    · exact Or.inr (List.mem_cons_of_mem _ h)

/-- A successful association lookup is a membership. -/
theorem alookup_mem {α : Type} :
    ∀ (ps : List (String × α)) (k : String) (v : α),
    alookup ps k = some v → (k, v) ∈ ps := by
  intro ps
  induction ps with
  | nil => intro k v h; cases h
  | cons e ps ih =>
    obtain ⟨k₀, v₀⟩ := e
    intro k v h
    rw [alookup] at h
    split at h
    · rename_i hk
      injection h with h
      rw [← hk, ← h]
      exact List.mem_cons_self _ _
    · exact List.mem_cons_of_mem _ (ih k v h)

/-- Values after one merge come from the old store or the merged batch. -/
theorem paramsMerge1_values (ps : Params) (p : String) (vs : List String)
    (P : String → Prop)
    (hps : ∀ q ∈ ps, ∀ v ∈ q.2, P v) (hvs : ∀ v ∈ vs, P v) :
    ∀ q ∈ paramsMerge1 ps p vs, ∀ v ∈ q.2, P v := by
  intro q hq v hv
  unfold paramsMerge1 at hq
  split at hq
  · rename_i prev hprev
    unfold assocUpdate at hq
    rw [List.mem_map] at hq
    obtain ⟨e, he, hqe⟩ := hq
    by_cases hk : e.1 = p
    · rw [if_pos hk] at hqe
      rw [← hqe] at hv
      rcases mem_setUnion vs prev v hv with hv | hv
      · exact hps (p, prev) (alookup_mem ps p prev hprev) v hv
      · exact hvs v hv
    · rw [if_neg hk] at hqe
      exact hps q (hqe ▸ he) v hv
  · rcases List.mem_append.mp hq with hq | hq
    · exact hps q hq v hv
    · rw [List.mem_singleton] at hq
      rw [hq] at hv
      rcases mem_setUnion vs [] v hv with hv | hv
      · cases hv
      · exact hvs v hv

/-- Values after the whole merge loop come from the old store or one of the
produced batches. -/
theorem paramsMergeAll_values :
    ∀ (nps : List (String × List String)) (ps : Params) (P : String → Prop),
    (∀ q ∈ ps, ∀ v ∈ q.2, P v) → (∀ pr ∈ nps, ∀ v ∈ pr.2, P v) →
    ∀ q ∈ paramsMergeAll ps nps, ∀ v ∈ q.2, P v := by
  intro nps
  induction nps with
  | nil => intro ps P hps _ q hq; exact hps q hq
  | cons pr nps ih =>
    intro ps P hps hnps q hq
    have hred : paramsMergeAll ps (pr :: nps) =
        paramsMergeAll (paramsMerge1 ps pr.1 pr.2) nps := rfl
    rw [hred] at hq
    exact ih (paramsMerge1 ps pr.1 pr.2) P
      (paramsMerge1_values ps pr.1 pr.2 P hps
        (fun v hv => hnps pr (List.mem_cons_self _ _) v hv))
      (fun q' hq' v hv => hnps q' (List.mem_cons_of_mem _ hq') v hv)
      q hq

/-- Values produced by a configured endpoint from the response at `url` are
among the values extractable at `url`. -/
theorem provide_values_mem_extractedOf (O : Oracle) (urls : List APIUrl)
    (u : APIUrl) (hu : u ∈ urls) (url r : String) (hf : O.fetch url = some r)
    (nps : List (String × List String)) (hp : u.provide O.parse r = some nps) :
    ∀ pr ∈ nps, ∀ v ∈ pr.2, v ∈ extractedOf O urls url := by
  intro pr hpr v hv
  unfold extractedOf
  rw [hf]
  show v ∈ urls.flatMap (fun u' =>
    match u'.provide O.parse r with
    | none => []
    | some nps' => nps'.flatMap (fun pr' => pr'.2))
  rw [List.mem_flatMap]
  refine ⟨u, hu, ?_⟩
  show v ∈ (match u.provide O.parse r with
    | none => []
    | some nps' => nps'.flatMap (fun pr' => pr'.2))
  rw [hp]
  show v ∈ nps.flatMap (fun pr' => pr'.2)
  rw [List.mem_flatMap]
  exact ⟨pr, hpr, hv⟩

/-- Values extractable at an answering URL are in the value universe. -/
theorem mem_valueUniverse (O : Oracle) (urls : List APIUrl) (F : List String)
    (url : String) (hurl : url ∈ F) (v : String)
    (hv : v ∈ extractedOf O urls url) : v ∈ valueUniverse O urls F := by
  rw [valueUniverse, List.mem_flatMap]
  exact ⟨url, hurl, hv⟩

/-- Values read back from the store through `getVals` satisfy the store
invariant. -/
theorem getVals_values (ps : Params) (P : String → Prop)
    (hps : ∀ q ∈ ps, ∀ v ∈ q.2, P v) (d : String) (v : String)
    (hv : v ∈ getVals ps d) : P v := by
  unfold getVals at hv
  cases ha : alookup ps d with
  | none => rw [ha] at hv; cases hv
  | some vs =>
    rw [ha] at hv
    exact hps (d, vs) (alookup_mem ps d vs ha) v hv

/-! ## Preservation of the crawl invariant (claim C3) -/

/-- One binding preserves the invariant, provided its key is in the universe
and fetch only answers inside `F`. -/
theorem processBinding_inv (O : Oracle) (urls : List APIUrl) (F : List String)
    (idx : Nat) (u : APIUrl) (st st' : CrawlState) (b : Binding) (ev : List Event)
    (hF : ∀ url, url ∉ F → O.fetch url = none)
    (hu : u ∈ urls)
    (htodo : todoOf idx b ∈ todoUniverse O urls F)
    (hinv : Inv O urls F st)
    (h : processBinding O idx u st b = some (st', ev)) :
    Inv O urls F st' := by
  obtain ⟨hnd, hdone, hparams⟩ := hinv
  unfold processBinding at h
  split at h
  · injection h with h
    injection h with h1 h2
    rw [← h1]
    exact ⟨hnd, hdone, hparams⟩
  · rename_i hmem
    have hdone1 : ∀ t ∈ st.done ++ [todoOf idx b], t ∈ todoUniverse O urls F := by
      intro t ht
      rcases List.mem_append.mp ht with ht | ht
      · exact hdone t ht
      · rw [List.mem_singleton] at ht
        rw [ht]
        exact htodo
    have hnd1 : (st.done ++ [todoOf idx b]).Nodup := by
      rw [List.nodup_append]
      refine ⟨hnd, List.nodup_singleton _, ?_⟩
      intro a ha hb'
      rw [List.mem_singleton] at hb'
      exact hmem (hb' ▸ ha)
    split at h
    · exact absurd h (by simp)
    · rename_i url hurl
      split at h
      · injection h with h
        injection h with h1 h2
        rw [← h1]
        exact ⟨hnd1, hdone1, hparams⟩
      · rename_i r hfetch
        split at h
        · injection h with h
          injection h with h1 h2
          rw [← h1]
          exact ⟨hnd1, hdone1, hparams⟩
        · rename_i nps hprov
          injection h with h
          injection h with h1 h2
          rw [← h1]
          have hurlF : url ∈ F := by
            by_contra hno
            rw [hF url hno] at hfetch
            exact absurd hfetch (by simp)
          refine ⟨hnd1, hdone1, ?_⟩
          exact paramsMergeAll_values nps st.params (· ∈ valueUniverse O urls F)
            hparams
            (fun pr hpr v hv => mem_valueUniverse O urls F url hurlF v
              (provide_values_mem_extractedOf O urls u hu url r hfetch nps hprov
                pr hpr v hv))

/-- Every candidate binding of an endpoint, enumerated from an invariant
store, has its dedup key in the universe. -/
theorem allParamValues_todo_mem (O : Oracle) (urls : List APIUrl) (F : List String)
    (idx : Nat) (u : APIUrl) (ps : Params)
    (hu : u ∈ urls) (hidx : idx < urls.length)
    (hparams : ∀ q ∈ ps, ∀ v ∈ q.2, v ∈ valueUniverse O urls F)
    (b : Binding) (hb : b ∈ allParamValues ps u.dependencies) :
    todoOf idx b ∈ todoUniverse O urls F := by
  rw [allParamValues, List.mem_map] at hb
  obtain ⟨x, hx, rfl⟩ := hb
  show (idx, (dictZip u.dependencies x).map (·.2)) ∈ todoUniverse O urls F
  apply mem_todoUniverse O urls F idx _ hidx
  · rw [List.length_map]
    exact Nat.le_trans (dictZip_length_le _ _) (deps_le_maxDepsLen urls u hu)
  · intro v hv
    rw [List.mem_map] at hv
    obtain ⟨q, hq, rfl⟩ := hv
    have hx2 : q.2 ∈ x := dictZip_values _ x q hq
    obtain ⟨l, hl, hvl⟩ := mem_listProduct_factor _ x q.2 hx hx2
    rw [List.mem_map] at hl
    obtain ⟨d, hd, rfl⟩ := hl
    exact getVals_values ps _ hparams d q.2 hvl

/-- The binding loop preserves the invariant. -/
theorem processBindings_inv (O : Oracle) (urls : List APIUrl) (F : List String)
    (idx : Nat) (u : APIUrl)
    (hF : ∀ url, url ∉ F → O.fetch url = none) (hu : u ∈ urls) :
    ∀ (bs : List Binding) (st st' : CrawlState) (evs : List Event),
    (∀ b ∈ bs, todoOf idx b ∈ todoUniverse O urls F) →
    Inv O urls F st →
    processBindings O idx u st bs = some (st', evs) →
    Inv O urls F st' := by
  intro bs
  induction bs with
  | nil =>
    intro st st' evs _ hinv h
    injection h with h
    injection h with h1 h2
    rw [← h1]
    exact hinv
  | cons b bs ih =>
    intro st st' evs hbs hinv h
    unfold processBindings at h
    split at h
    · exact absurd h (by simp)
    · rename_i st1 ev hpb
      split at h
      · exact absurd h (by simp)
      · rename_i st2 evs2 hrest
        injection h with h
        injection h with h1 h2
        rw [← h1]
        exact ih st1 st2 evs2 (fun q hq => hbs q (List.mem_cons_of_mem _ hq))
          (processBinding_inv O urls F idx u st st1 b ev hF hu
            (hbs b (List.mem_cons_self _ _)) hinv hpb)
          hrest

/-- One endpoint preserves the invariant. -/
theorem download_url_inv (O : Oracle) (urls : List APIUrl) (F : List String)
    (idx : Nat) (u : APIUrl) (st st' : CrawlState) (ev : List Event)
    (hF : ∀ url, url ∉ F → O.fetch url = none)
    (hu : u ∈ urls) (hidx : idx < urls.length)
    (hinv : Inv O urls F st)
    (h : download_url O idx u st = some (st', ev)) :
    Inv O urls F st' := by
  unfold download_url at h
  split at h
  · exact processBindings_inv O urls F idx u hF hu _ st st' ev
      (fun b hb => allParamValues_todo_mem O urls F idx u st.params hu hidx
        hinv.2.2 b hb)
      hinv h
  · injection h with h
    injection h with h1 h2
    rw [← h1]
    exact hinv

/-- Members of `enumFrom` come from the underlying list. -/
theorem mem_enumFrom_snd :
    ∀ (l : List APIUrl) (n i : Nat) (u : APIUrl),
    (i, u) ∈ enumFrom n l → u ∈ l := by
  intro l
  induction l with
  | nil => intro n i u h; cases h
  | cons u₀ l ih =>
    intro n i u h
    rcases List.mem_cons.mp h with h | h
    · injection h with h1 h2
      rw [h2]
      exact List.mem_cons_self _ _
    · exact List.mem_cons_of_mem _ (ih (n + 1) i u h)

/-- Indices of `enumFrom` stay below the start plus the list length. -/
theorem mem_enumFrom_lt :
    ∀ (l : List APIUrl) (n i : Nat) (u : APIUrl),
    (i, u) ∈ enumFrom n l → i < n + l.length := by
  intro l
  induction l with
  | nil => intro n i u h; cases h
  | cons u₀ l ih =>
    intro n i u h
    rcases List.mem_cons.mp h with h | h
    · injection h with h1 h2
      simp [h1]
    · have := ih (n + 1) i u h
      simp at this ⊢
      omega

/-- A whole pass over an indexed list of configured endpoints preserves the
invariant. -/
theorem downloadUrls_inv (O : Oracle) (urls : List APIUrl) (F : List String)
    (hF : ∀ url, url ∉ F → O.fetch url = none) :
    ∀ (L : List (Nat × APIUrl)) (st st' : CrawlState) (evs : List Event),
    (∀ p ∈ L, p.2 ∈ urls ∧ p.1 < urls.length) →
    Inv O urls F st →
    downloadUrls O L st = some (st', evs) →
    Inv O urls F st' := by
  intro L
  induction L with
  | nil =>
    intro st st' evs _ hinv h
    injection h with h
    injection h with h1 h2
    rw [← h1]
    exact hinv
  | cons p rest ih =>
    obtain ⟨idx, u⟩ := p
    intro st st' evs hL hinv h
    unfold downloadUrls at h
    split at h
    · exact absurd h (by simp)
    · rename_i st1 ev hdu
      split at h
      · exact absurd h (by simp)
      · rename_i st2 evs2 hrest
        injection h with h
        injection h with h1 h2
        rw [← h1]
        obtain ⟨hu, hidx⟩ := hL (idx, u) (List.mem_cons_self _ _)
        exact ih st1 st2 evs2 (fun q hq => hL q (List.mem_cons_of_mem _ hq))
          (download_url_inv O urls F idx u st st1 ev hF hu hidx hinv hdu)
          hrest

/-- One full pass preserves the invariant. -/
theorem download_step_inv (O : Oracle) (urls : List APIUrl) (F : List String)
    (st st' : CrawlState) (ev : List Event)
    (hF : ∀ url, url ∉ F → O.fetch url = none)
    (hinv : Inv O urls F st)
    (h : download_step O urls st = some (st', ev)) :
    Inv O urls F st' := by
  apply downloadUrls_inv O urls F hF (enumFrom 0 urls)
    { st with loop := false } st' ev ?_ hinv h
  intro p hp
  obtain ⟨i, u⟩ := p
  refine ⟨mem_enumFrom_snd urls 0 i u hp, ?_⟩
  have := mem_enumFrom_lt urls 0 i u hp
  simpa using this

/-! ## Termination of the fixpoint loop (claim C3) -/

/-- With the progress flag clear the loop returns immediately, whatever fuel
remains. -/
theorem downloadFuel_noloop (O : Oracle) (urls : List APIUrl) (fuel : Nat)
    (st : CrawlState) (h : st.loop = false) :
    downloadFuel O urls fuel st = some (st, [], 0) := by
  cases fuel <;> simp [downloadFuel, h]

/-- Unfolding one executed pass of the loop. -/
theorem downloadFuel_succ_eq (O : Oracle) (urls : List APIUrl) (fuel : Nat)
    (st st1 : CrawlState) (ev : List Event) (st2 : CrawlState)
    (evs2 : List Event) (r2 : Nat)
    (hl : st.loop = true)
    (hstep : download_step O urls st = some (st1, ev))
    (hrec : downloadFuel O urls fuel st1 = some (st2, evs2, r2)) :
    downloadFuel O urls (fuel + 1) st = some (st2, ev ++ evs2, r2 + 1) := by
  rw [downloadFuel, if_pos hl, hstep]
  show (match downloadFuel O urls fuel st1 with
        | none => none
        | some (st'', evs, r) => some (st'', ev ++ evs, r + 1)) =
      some (st2, ev ++ evs2, r2 + 1)
  rw [hrec]

/-- The loop executes at most `fuel` passes. -/
theorem downloadFuel_rounds_le (O : Oracle) (urls : List APIUrl) :
    ∀ (fuel : Nat) (st st' : CrawlState) (evs : List Event) (r : Nat),
    downloadFuel O urls fuel st = some (st', evs, r) → r ≤ fuel := by
  intro fuel
  induction fuel with
  | zero =>
    intro st st' evs r h
    unfold downloadFuel at h
    split at h
    · exact absurd h (by simp)
    · injection h with h
      injection h with h1 h2
      injection h2 with h2 h3
      omega
  | succ fuel ih =>
    intro st st' evs r h
    unfold downloadFuel at h
    split at h
    · split at h
      · exact absurd h (by simp)
      · rename_i st1 ev hstep
        split at h
        · exact absurd h (by simp)
        · rename_i st2 evs2 r2 hrest
          injection h with h
          injection h with h1 h2
          injection h2 with h2 h3
          have := ih st1 st2 evs2 r2 hrest
          omega
    · injection h with h
      injection h with h1 h2
      injection h2 with h2 h3
      omega

/-- Main induction: under the finite-discovery hypothesis, enough fuel makes
the loop return.  The measure is the remaining capacity of the finite key
universe. -/
theorem downloadFuel_terminates (O : Oracle) (urls : List APIUrl)
    (F : List String) (hF : ∀ url, url ∉ F → O.fetch url = none) :
    ∀ (fuel : Nat) (st : CrawlState),
    Inv O urls F st →
    (todoUniverse O urls F).length + 2 ≤ fuel + st.done.length →
    ∃ out, downloadFuel O urls fuel st = some out := by
  intro fuel
  induction fuel with
  | zero =>
    intro st hinv hge
    have hle := done_length_le O urls F st.done hinv.1 hinv.2.1
    omega
  | succ fuel ih =>
    intro st hinv hge
    cases hl : st.loop with
    | false => exact ⟨(st, [], 0), downloadFuel_noloop O urls (fuel + 1) st hl⟩
    | true =>
      obtain ⟨⟨st1, ev⟩, hstep⟩ :=
        Option.ne_none_iff_exists'.mp (download_step_total O urls st)
      have hinv1 := download_step_inv O urls F st st1 ev hF hinv hstep
      cases hl1 : st1.loop with
      | false =>
        exact ⟨(st1, ev ++ [], 0 + 1),
          downloadFuel_succ_eq O urls fuel st st1 ev st1 [] 0 hl hstep
            (downloadFuel_noloop O urls fuel st1 hl1)⟩
      | true =>
        have hlt := (download_step_progress O urls st st1 ev hstep).2 hl1
        obtain ⟨⟨st2, evs2, r2⟩, hrec⟩ := ih st1 hinv1 (by omega)
        exact ⟨(st2, ev ++ evs2, r2 + 1),
          downloadFuel_succ_eq O urls fuel st st1 ev st2 evs2 r2 hl hstep hrec⟩

/-- C3, counterexample.  `urlsChain` is a three-endpoint dependency chain
(`A` provides `p1`, `B{p1}` provides `p2`, `C{p2}` consumes it), declared in
dependency order, with finite acyclic discovery.  The claim's count — longest
dependency chain plus one — is `2 + 1 = 3` counting edges (or `3 + 1 = 4`
counting endpoints), but `download()` executes exactly `2` passes: in-round
propagation lets the first pass fetch all three endpoints, and the second
pass observes no progress. -/
theorem c3_counterexample :
    (downloadFuel oracleChain urlsChain 10 initState).map (fun x => x.2.2) =
      some 2 ∧
    (2 : Nat) ≠ 2 + 1 ∧ (2 : Nat) ≠ 3 + 1 := by
  refine ⟨by decide, by decide, by decide⟩

/-- C3, amended.  With finite discovery — only the URLs listed in `F` answer
at all, so every discoverable parameter value and every issuable dedup key
lives in a finite universe — the top-level `download()` loop terminates:
`fuelBound` passes suffice, and the number of passes executed is at most that
bound (one more than the pass capacity of the key universe).  The exact pass
count is *not* in general the longest dependency chain plus one: it depends
on declaration order, and in-round propagation can satisfy a whole chain in a
single pass (see the counterexample). -/
theorem c3_amended (O : Oracle) (urls : List APIUrl) (F : List String)
    (hF : ∀ url, url ∉ F → O.fetch url = none) :
    ∃ st' tr r,
      downloadFuel O urls (fuelBound O urls F) initState = some (st', tr, r) ∧
      r ≤ fuelBound O urls F := by
  have hinv : Inv O urls F initState :=
    ⟨List.nodup_nil, fun t ht => absurd ht (by simp [initState]),
     fun q hq => absurd hq (by simp [initState])⟩
  have hge : (todoUniverse O urls F).length + 2 ≤
      fuelBound O urls F + initState.done.length := by
    rw [fuelBound]
    simp [initState]
  obtain ⟨⟨st', tr, r⟩, hout⟩ :=
    downloadFuel_terminates O urls F hF (fuelBound O urls F) initState hinv hge
  exact ⟨st', tr, r, hout,
    downloadFuel_rounds_le O urls (fuelBound O urls F) initState st' tr r hout⟩

/-- C3, amended, witness: the empty endpoint set with a never-answering fetch
oracle terminates within its fuel bound. -/
theorem c3_amended_witness :
    ∃ st' tr r,
      downloadFuel oracleNone [] (fuelBound oracleNone [] []) initState =
        some (st', tr, r) ∧
      r ≤ fuelBound oracleNone [] [] :=
  c3_amended oracleNone [] [] (fun _ _ => rfl)

end SparkCrawl
